import Mathlib

/-!
# Verification of the transportation-problem solver core

This development is a shallow embedding of the solver backend
(`TransportationSolver` in `tpp_solver_pyqt6.py`): the North-West Corner
Method for the initial basic feasible solution, degeneracy repair, the
MODI dual-variable computation, entering-cell selection, closed-loop
search and reallocation, and the driving `solve` loop.

Numbers are modelled as exact rationals.  The magic floating constants of
the source (`1e-10` epsilon markers, `-1e-9` tolerance) become the exact
rationals `1/10^10` and `1/10^9`.  The unbounded `while` loops of the
source are modelled with an explicit fuel argument; fuel exhaustion is a
distinct result (`Option.none` or a dedicated outcome constructor) so it
is never conflated with a result the source can produce, and sufficiency
of a concrete fuel is proved where the source loop provably terminates.
-/

set_option maxHeartbeats 1000000

namespace TPS

abbrev Cell := ℕ × ℕ

/-- An allocation matrix, total over indices; only the `rows × cols` grid
is ever read. -/
abbrev Alloc := ℕ → ℕ → ℚ

/-- A problem instance: `costs`, `supply`, `demand` and the grid size,
mirroring the constructor of `TransportationSolver`. -/
structure TP where
  rows : ℕ
  cols : ℕ
  costs : ℕ → ℕ → ℚ
  supply : ℕ → ℚ
  demand : ℕ → ℚ

/-- The epsilon marker `1e-10` written by `fix_degeneracy`. -/
def eps : ℚ := 1 / 10 ^ 10

/-- The optimality tolerance: the source compares `min_d >= -1e-9`. -/
def tol : ℚ := 1 / 10 ^ 9

/-- Write a single allocation cell (`self.allocation[r][c] = q`). -/
def setA (A : Alloc) (r c : ℕ) (q : ℚ) : Alloc :=
  fun i j => if i = r ∧ j = c then q else A i j

/-- In-place add to a single allocation cell (`self.allocation[r][c] += d`). -/
def bump (A : Alloc) (r c : ℕ) (d : ℚ) : Alloc := setA A r c (A r c + d)

def rowSum (P : TP) (A : Alloc) (r : ℕ) : ℚ := ∑ c in Finset.range P.cols, A r c

def colSum (P : TP) (A : Alloc) (c : ℕ) : ℚ := ∑ r in Finset.range P.rows, A r c

/-- `calculate_total_cost`. -/
def calculate_total_cost (P : TP) (A : Alloc) : ℚ :=
  ∑ r in Finset.range P.rows, ∑ c in Finset.range P.cols, A r c * P.costs r c

/-- The cells `allocation[r][c] > 0`, as counted by `fix_degeneracy`. -/
def countPos (P : TP) (A : Alloc) : ℕ :=
  ((Finset.range P.rows ×ˢ Finset.range P.cols).filter fun e => 0 < A e.1 e.2).card

/-- The basic-cell test `allocation[r][c] > 0 or allocation[r][c] == 1e-10`
used by `calculate_uv` and `get_closed_loop`. -/
def isBasic (A : Alloc) (r c : ℕ) : Prop := 0 < A r c ∨ A r c = eps

instance (A : Alloc) (r c : ℕ) : Decidable (isBasic A r c) := by
  unfold isBasic; infer_instance

lemma eps_pos : 0 < eps := by norm_num [eps]

lemma tol_pos : 0 < tol := by norm_num [tol]

/-- Since `1e-10 > 0`, the source's basic-cell test is just positivity. -/
lemma isBasic_iff_pos (A : Alloc) (r c : ℕ) : isBasic A r c ↔ 0 < A r c := by
  constructor
  · rintro (h | h)
    · exact h
    · rw [h]; exact eps_pos
  · exact fun h => Or.inl h

lemma setA_same (A : Alloc) (r c : ℕ) (q : ℚ) : setA A r c q r c = q := by
  simp [setA]

lemma setA_other (A : Alloc) (r c : ℕ) (q : ℚ) {i j : ℕ} (h : ¬(i = r ∧ j = c)) :
    setA A r c q i j = A i j := by
  simp only [setA, if_neg h]

/-! ## North-West Corner Method (`nwcm`) -/

/-- The loop state of `nwcm`: cursor `(r, c)`, the working copies
`cur_supply`, `cur_demand`, and the allocation being written. -/
structure NWState where
  r : ℕ
  c : ℕ
  cs : ℕ → ℚ
  cd : ℕ → ℚ
  alloc : Alloc

/-- One iteration of the `nwcm` loop body.  The final `else` branch (no
cursor advances) corresponds to the source looping forever on the same
state; `min_sub_left_or_right` shows it is never taken. -/
def nwcmStep (s : NWState) : NWState :=
  let qty := min (s.cs s.r) (s.cd s.c)
  let cs2 := Function.update s.cs s.r (s.cs s.r - qty)
  let cd2 := Function.update s.cd s.c (s.cd s.c - qty)
  let A2 := setA s.alloc s.r s.c qty
  if cs2 s.r = 0 then ⟨s.r + 1, s.c, cs2, cd2, A2⟩
  else if cd2 s.c = 0 then ⟨s.r, s.c + 1, cs2, cd2, A2⟩
  else ⟨s.r, s.c, cs2, cd2, A2⟩

/-- The `nwcm` while-loop with fuel; `none` models non-termination within
the given fuel. -/
def nwcmGo (P : TP) : ℕ → NWState → Option NWState
  | 0, s => if s.r < P.rows ∧ s.c < P.cols then none else some s
  | f + 1, s =>
      if s.r < P.rows ∧ s.c < P.cols then nwcmGo P f (nwcmStep s) else some s

def nwcmInit (P : TP) : NWState := ⟨0, 0, P.supply, P.demand, fun _ _ => 0⟩

/-- `nwcm` run on the zero-filled allocation; fuel `rows + cols` is proved
sufficient below. -/
def nwcm (P : TP) : Alloc :=
  match nwcmGo P (P.rows + P.cols) (nwcmInit P) with
  | some s => s.alloc
  | none => fun _ _ => 0

lemma min_sub_left_or_right (a b : ℚ) : a - min a b = 0 ∨ b - min a b = 0 := by
  rcases le_total a b with h | h
  · left; rw [min_eq_left h]; ring
  · right; rw [min_eq_right h]; ring

/-- Each loop iteration advances exactly one of the two cursors. -/
lemma nwcmStep_rc (s : NWState) :
    (nwcmStep s).r + (nwcmStep s).c = s.r + s.c + 1 := by
  unfold nwcmStep
  rcases min_sub_left_or_right (s.cs s.r) (s.cd s.c) with h | h
  · simp only [Function.update_same]
    rw [if_pos h]
    ring
  · simp only [Function.update_same]
    by_cases h2 : s.cs s.r - min (s.cs s.r) (s.cd s.c) = 0
    · rw [if_pos h2]; ring
    · rw [if_neg h2, if_pos h]; ring

/-- Fuel `rows + cols - 1 - (r + c)` suffices for the `nwcm` loop. -/
lemma nwcmGo_isSome (P : TP) :
    ∀ f s, P.rows + P.cols ≤ f + s.r + s.c + 1 → (nwcmGo P f s).isSome := by
  intro f
  induction f with
  | zero =>
      intro s h
      unfold nwcmGo
      have : ¬(s.r < P.rows ∧ s.c < P.cols) := by
        rintro ⟨h1, h2⟩; omega
      rw [if_neg this]; rfl
  | succ f ih =>
      intro s h
      unfold nwcmGo
      by_cases hact : s.r < P.rows ∧ s.c < P.cols
      · rw [if_pos hact]
        apply ih
        have := nwcmStep_rc s
        omega
      · rw [if_neg hact]; rfl

/-- A successful `nwcm` run is unchanged by extra fuel. -/
lemma nwcmGo_mono (P : TP) :
    ∀ f s s2, nwcmGo P f s = some s2 → ∀ g, f ≤ g → nwcmGo P g s = s2 := by
  intro f
  induction f with
  | zero =>
      intro s s2 h g _
      unfold nwcmGo at h
      by_cases hact : s.r < P.rows ∧ s.c < P.cols
      · rw [if_pos hact] at h; exact absurd h (by simp)
      · rw [if_neg hact] at h
        cases g with
        | zero => unfold nwcmGo; rw [if_neg hact]; exact h
        | succ g => unfold nwcmGo; rw [if_neg hact]; exact h
  | succ f ih =>
      intro s s2 h g hg
      unfold nwcmGo at h
      by_cases hact : s.r < P.rows ∧ s.c < P.cols
      · rw [if_pos hact] at h
        cases g with
        | zero => omega
        | succ g =>
            unfold nwcmGo
            rw [if_pos hact]
            exact ih _ _ h g (by omega)
      · rw [if_neg hact] at h
        cases g with
        | zero => unfold nwcmGo; rw [if_neg hact]; exact h
        | succ g => unfold nwcmGo; rw [if_neg hact]; exact h

/-- The loop invariant of `nwcm`: partial row/column balances, exhausted
prefixes, non-negative residuals, and zeroes at and beyond the cursor. -/
structure NWInv (P : TP) (s : NWState) : Prop where
  hr : s.r ≤ P.rows
  hc : s.c ≤ P.cols
  rowbal : ∀ i, s.cs i + rowSum P s.alloc i = P.supply i
  colbal : ∀ j, s.cd j + colSum P s.alloc j = P.demand j
  rdone : ∀ i < s.r, s.cs i = 0
  cdone : ∀ j < s.c, s.cd j = 0
  csnn : ∀ i, 0 ≤ s.cs i
  cdnn : ∀ j, 0 ≤ s.cd j
  ahead : ∀ i j, (s.r < i ∨ (i = s.r ∧ s.c ≤ j)) → s.alloc i j = 0
  ann : ∀ i j, 0 ≤ s.alloc i j

lemma nwcmInit_inv (P : TP) (hs : ∀ i, 0 ≤ P.supply i) (hd : ∀ j, 0 ≤ P.demand j) :
    NWInv P (nwcmInit P) := by
  refine ⟨Nat.zero_le _, Nat.zero_le _, ?_, ?_, ?_, ?_, hs, hd, ?_, ?_⟩
  · intro i; simp [rowSum, nwcmInit]
  · intro j; simp [colSum, nwcmInit]
  · intro i h; simp [nwcmInit] at h
  · intro j h; simp [nwcmInit] at h
  · intro i j _; rfl
  · intro i j; exact le_refl 0

lemma rowSum_setA_of_zero (P : TP) (A : Alloc) {r c : ℕ} (hc : c < P.cols)
    (hz : A r c = 0) (q : ℚ) (i : ℕ) :
    rowSum P (setA A r c q) i = rowSum P A i + if i = r then q else 0 := by
  by_cases hir : i = r
  · subst hir
    simp only [eq_self_iff_true, if_true]
    unfold rowSum
    have hmem : c ∈ Finset.range P.cols := Finset.mem_range.mpr hc
    rw [← Finset.add_sum_erase _ (fun j => setA A i c q i j) hmem,
      ← Finset.add_sum_erase _ (fun j => A i j) hmem]
    have h1 : setA A i c q i c = q := setA_same A i c q
    have h2 : ∀ j ∈ (Finset.range P.cols).erase c, setA A i c q i j = A i j := by
      intro j hj
      exact setA_other A i c q (by rintro ⟨_, rfl⟩; exact (Finset.mem_erase.mp hj).1 rfl)
    rw [h1, Finset.sum_congr rfl h2, hz]
    ring
  · simp only [if_neg hir]
    unfold rowSum
    rw [add_zero]
    apply Finset.sum_congr rfl
    intro j _
    exact setA_other A r c q (by rintro ⟨rfl, rfl⟩; exact hir rfl)

lemma colSum_setA_of_zero (P : TP) (A : Alloc) {r c : ℕ} (hr : r < P.rows)
    (hz : A r c = 0) (q : ℚ) (j : ℕ) :
    colSum P (setA A r c q) j = colSum P A j + if j = c then q else 0 := by
  by_cases hjc : j = c
  · subst hjc
    simp only [eq_self_iff_true, if_true]
    unfold colSum
    have hmem : r ∈ Finset.range P.rows := Finset.mem_range.mpr hr
    rw [← Finset.add_sum_erase _ (fun i => setA A r j q i j) hmem,
      ← Finset.add_sum_erase _ (fun i => A i j) hmem]
    have h1 : setA A r j q r j = q := setA_same A r j q
    have h2 : ∀ i ∈ (Finset.range P.rows).erase r, setA A r j q i j = A i j := by
      intro i hi
      exact setA_other A r j q (by rintro ⟨rfl, _⟩; exact (Finset.mem_erase.mp hi).1 rfl)
    rw [h1, Finset.sum_congr rfl h2, hz]
    ring
  · simp only [if_neg hjc]
    unfold colSum
    rw [add_zero]
    apply Finset.sum_congr rfl
    intro i _
    exact setA_other A r c q (by rintro ⟨rfl, rfl⟩; exact hjc rfl)

lemma nwcmStep_inv (P : TP) (s : NWState) (hact : s.r < P.rows ∧ s.c < P.cols)
    (hinv : NWInv P s) : NWInv P (nwcmStep s) := by
  obtain ⟨hr, hc, rowbal, colbal, rdone, cdone, csnn, cdnn, ahead, ann⟩ := hinv
  have hz : s.alloc s.r s.c = 0 := ahead s.r s.c (Or.inr ⟨rfl, le_refl _⟩)
  set qty := min (s.cs s.r) (s.cd s.c) with hqty
  have hqnn : 0 ≤ qty := le_min (csnn s.r) (cdnn s.c)
  have hqle1 : qty ≤ s.cs s.r := min_le_left _ _
  have hqle2 : qty ≤ s.cd s.c := min_le_right _ _
  -- shared facts about the updated components
  have hcs2 : ∀ i, Function.update s.cs s.r (s.cs s.r - qty) i =
      if i = s.r then s.cs s.r - qty else s.cs i := by
    intro i; by_cases h : i = s.r
    · subst h; simp
    · simp [Function.update_noteq h, h]
  have hcd2 : ∀ j, Function.update s.cd s.c (s.cd s.c - qty) j =
      if j = s.c then s.cd s.c - qty else s.cd j := by
    intro j; by_cases h : j = s.c
    · subst h; simp
    · simp [Function.update_noteq h, h]
  have hrs : ∀ i, rowSum P (setA s.alloc s.r s.c qty) i =
      rowSum P s.alloc i + if i = s.r then qty else 0 :=
    rowSum_setA_of_zero P s.alloc hact.2 hz qty
  have hcsum : ∀ j, colSum P (setA s.alloc s.r s.c qty) j =
      colSum P s.alloc j + if j = s.c then qty else 0 :=
    colSum_setA_of_zero P s.alloc hact.1 hz qty
  have hrowbal2 : ∀ i, Function.update s.cs s.r (s.cs s.r - qty) i +
      rowSum P (setA s.alloc s.r s.c qty) i = P.supply i := by
    intro i
    rw [hcs2, hrs]
    by_cases h : i = s.r
    · subst h
      simp only [eq_self_iff_true, if_true]
      have := rowbal s.r
      linarith
    · simp only [if_neg h]
      have := rowbal i
      linarith
  have hcolbal2 : ∀ j, Function.update s.cd s.c (s.cd s.c - qty) j +
      colSum P (setA s.alloc s.r s.c qty) j = P.demand j := by
    intro j
    rw [hcd2, hcsum]
    by_cases h : j = s.c
    · subst h
      simp only [eq_self_iff_true, if_true]
      have := colbal s.c
      linarith
    · simp only [if_neg h]
      have := colbal j
      linarith
  have hcsnn2 : ∀ i, 0 ≤ Function.update s.cs s.r (s.cs s.r - qty) i := by
    intro i; rw [hcs2]
    by_cases h : i = s.r
    · simp only [if_pos h]; linarith
    · simp only [if_neg h]; exact csnn i
  have hcdnn2 : ∀ j, 0 ≤ Function.update s.cd s.c (s.cd s.c - qty) j := by
    intro j; rw [hcd2]
    by_cases h : j = s.c
    · simp only [if_pos h]; linarith
    · simp only [if_neg h]; exact cdnn j
  have hann2 : ∀ i j, 0 ≤ setA s.alloc s.r s.c qty i j := by
    intro i j
    by_cases h : i = s.r ∧ j = s.c
    · obtain ⟨rfl, rfl⟩ := h; rw [setA_same]; exact hqnn
    · rw [setA_other _ _ _ _ h]; exact ann i j
  unfold nwcmStep
  rw [← hqty]
  simp only [Function.update_same]
  by_cases h1 : s.cs s.r - qty = 0
  · rw [if_pos h1]
    refine ⟨?_, ?_, ?_, ?_, ?_, ?_, ?_, ?_, ?_, ?_⟩ <;> dsimp only
    · omega
    · exact hc
    · exact hrowbal2
    · exact hcolbal2
    · intro i hi
      rw [hcs2]
      by_cases h : i = s.r
      · simp only [if_pos h]; subst h; exact h1
      · simp only [if_neg h]; exact rdone i (by omega)
    · intro j hj
      rw [hcd2]
      have h : j ≠ s.c := by omega
      simp only [if_neg h]
      exact cdone j hj
    · exact hcsnn2
    · exact hcdnn2
    · intro i j hij
      apply Eq.trans (setA_other _ _ _ _ ?_) (ahead i j ?_)
      · rintro ⟨rfl, rfl⟩; omega
      · rcases hij with h | ⟨rfl, hj⟩
        · left; omega
        · left; omega
    · exact hann2
  · rw [if_neg h1]
    rcases min_sub_left_or_right (s.cs s.r) (s.cd s.c) with h | h
    · exact absurd h h1
    rw [if_pos h]
    refine ⟨?_, ?_, ?_, ?_, ?_, ?_, ?_, ?_, ?_, ?_⟩ <;> dsimp only
    · exact hr
    · omega
    · exact hrowbal2
    · exact hcolbal2
    · intro i hi
      rw [hcs2]
      by_cases hh : i = s.r
      · subst hh; exact absurd hi (lt_irrefl _)
      · simp only [if_neg hh]; exact rdone i hi
    · intro j hj
      rw [hcd2]
      by_cases hh : j = s.c
      · simp only [if_pos hh]; exact h
      · simp only [if_neg hh]; exact cdone j (by omega)
    · exact hcsnn2
    · exact hcdnn2
    · intro i j hij
      apply Eq.trans (setA_other _ _ _ _ ?_) (ahead i j ?_)
      · rintro ⟨rfl, rfl⟩; omega
      · rcases hij with hh | ⟨rfl, hj⟩
        · left; exact hh
        · right; exact ⟨rfl, by omega⟩
    · exact hann2

lemma nwcmGo_inv (P : TP) :
    ∀ f s s2, nwcmGo P f s = some s2 → NWInv P s →
      NWInv P s2 ∧ ¬(s2.r < P.rows ∧ s2.c < P.cols) := by
  intro f
  induction f with
  | zero =>
      intro s s2 h hinv
      unfold nwcmGo at h
      by_cases hact : s.r < P.rows ∧ s.c < P.cols
      · rw [if_pos hact] at h; exact absurd h (by simp)
      · rw [if_neg hact] at h
        cases h
        exact ⟨hinv, hact⟩
  | succ f ih =>
      intro s s2 h hinv
      unfold nwcmGo at h
      by_cases hact : s.r < P.rows ∧ s.c < P.cols
      · rw [if_pos hact] at h
        exact ih _ _ h (nwcmStep_inv P s hact hinv)
      · rw [if_neg hact] at h
        cases h
        exact ⟨hinv, hact⟩

lemma total_row_col (P : TP) (A : Alloc) :
    ∑ i in Finset.range P.rows, rowSum P A i = ∑ j in Finset.range P.cols, colSum P A j := by
  unfold rowSum colSum
  exact Finset.sum_comm

/-- Analysis of the `nwcm` exit state: a balanced instance is fully
allocated in every row and column. -/
lemma nwcm_exit_feasible (P : TP) (s : NWState) (hinv : NWInv P s)
    (hstop : ¬(s.r < P.rows ∧ s.c < P.cols))
    (hbal : ∑ i in Finset.range P.rows, P.supply i = ∑ j in Finset.range P.cols, P.demand j) :
    (∀ r < P.rows, rowSum P s.alloc r = P.supply r) ∧
      (∀ c < P.cols, colSum P s.alloc c = P.demand c) := by
  obtain ⟨hr, hc, rowbal, colbal, rdone, cdone, csnn, cdnn, ahead, ann⟩ := hinv
  rcases not_and_or.mp hstop with hcase | hcase
  · -- the row cursor reached its bound: rows are exact, columns follow from balance
    have hrows : ∀ i < P.rows, rowSum P s.alloc i = P.supply i := by
      intro i hi
      have h0 : s.cs i = 0 := rdone i (by omega)
      have := rowbal i
      linarith
    refine ⟨hrows, ?_⟩
    have hsumrows : ∑ i in Finset.range P.rows, rowSum P s.alloc i =
        ∑ i in Finset.range P.rows, P.supply i :=
      Finset.sum_congr rfl fun i hi => hrows i (Finset.mem_range.mp hi)
    have hsumcd : ∑ j in Finset.range P.cols, s.cd j = 0 := by
      have h1 : ∑ j in Finset.range P.cols, (s.cd j + colSum P s.alloc j) =
          ∑ j in Finset.range P.cols, P.demand j :=
        Finset.sum_congr rfl fun j _ => colbal j
      rw [Finset.sum_add_distrib] at h1
      have h2 := total_row_col P s.alloc
      rw [hsumrows, hbal] at h2
      linarith
    have hzero : ∀ j ∈ Finset.range P.cols, s.cd j = 0 :=
      (Finset.sum_eq_zero_iff_of_nonneg fun j _ => cdnn j).mp hsumcd
    intro c hcc
    have := colbal c
    have h0 : s.cd c = 0 := hzero c (Finset.mem_range.mpr hcc)
    linarith
  · -- the column cursor reached its bound: symmetric
    have hcols : ∀ j < P.cols, colSum P s.alloc j = P.demand j := by
      intro j hj
      have h0 : s.cd j = 0 := cdone j (by omega)
      have := colbal j
      linarith
    refine ⟨?_, hcols⟩
    have hsumcols : ∑ j in Finset.range P.cols, colSum P s.alloc j =
        ∑ j in Finset.range P.cols, P.demand j :=
      Finset.sum_congr rfl fun j hj => hcols j (Finset.mem_range.mp hj)
    have hsumcs : ∑ i in Finset.range P.rows, s.cs i = 0 := by
      have h1 : ∑ i in Finset.range P.rows, (s.cs i + rowSum P s.alloc i) =
          ∑ i in Finset.range P.rows, P.supply i :=
        Finset.sum_congr rfl fun i _ => rowbal i
      rw [Finset.sum_add_distrib] at h1
      have h2 := total_row_col P s.alloc
      rw [hsumcols, ← hbal] at h2
      linarith
    have hzero : ∀ i ∈ Finset.range P.rows, s.cs i = 0 :=
      (Finset.sum_eq_zero_iff_of_nonneg fun i _ => csnn i).mp hsumcs
    intro r hrr
    have := rowbal r
    have h0 : s.cs r = 0 := hzero r (Finset.mem_range.mpr hrr)
    linarith

/-- `nwcm` evaluated through a successful fuel run. -/
lemma nwcm_eq_of_go (P : TP) (s2 : NWState) (f : ℕ) (hf : f ≤ P.rows + P.cols)
    (h : nwcmGo P f (nwcmInit P) = some s2) : nwcm P = s2.alloc := by
  unfold nwcm
  rw [nwcmGo_mono P f _ s2 h (P.rows + P.cols) hf]

lemma nwcm_run (P : TP) :
    ∃ s2, nwcmGo P (P.rows + P.cols) (nwcmInit P) = some s2 ∧ nwcm P = s2.alloc := by
  have hsome : (nwcmGo P (P.rows + P.cols) (nwcmInit P)).isSome := by
    apply nwcmGo_isSome
    simp only [nwcmInit]
    omega
  obtain ⟨s2, hs2⟩ := Option.isSome_iff_exists.mp hsome
  exact ⟨s2, hs2, nwcm_eq_of_go P s2 _ (le_refl _) hs2⟩

/-- C1.  For every balanced instance (sum of supply equals sum of demand,
all entries non-negative, `rows, cols ≥ 1`), after `nwcm` runs on the
zero-filled allocation matrix, every row sums to its supply and every
column sums to its demand. -/
theorem nwcm_feasible (P : TP) (hrows : 1 ≤ P.rows) (hcols : 1 ≤ P.cols)
    (hcnn : ∀ r c, 0 ≤ P.costs r c)
    (hs : ∀ i, 0 ≤ P.supply i) (hd : ∀ j, 0 ≤ P.demand j)
    (hbal : ∑ i in Finset.range P.rows, P.supply i = ∑ j in Finset.range P.cols, P.demand j) :
    (∀ r < P.rows, rowSum P (nwcm P) r = P.supply r) ∧
      (∀ c < P.cols, colSum P (nwcm P) c = P.demand c) := by
  obtain ⟨s2, hgo, heq⟩ := nwcm_run P
  obtain ⟨hinv, hstop⟩ := nwcmGo_inv P _ _ _ hgo (nwcmInit_inv P hs hd)
  rw [heq]
  exact nwcm_exit_feasible P s2 hinv hstop hbal

/-- Witness for `nwcm_feasible` at the concrete balanced instance
costs `[[4,6],[5,3]]`, supply `[20,30]`, demand `[25,25]`. -/
def Pex : TP where
  rows := 2
  cols := 2
  costs := fun r c => (([[4, 6], [5, 3]].getD r []).getD c 0 : ℚ)
  supply := fun r => (([20, 30].getD r 0 : ℚ))
  demand := fun c => (([25, 25].getD c 0 : ℚ))

theorem nwcm_feasible_witness :
    (∀ r < Pex.rows, rowSum Pex (nwcm Pex) r = Pex.supply r) ∧
      (∀ c < Pex.cols, colSum Pex (nwcm Pex) c = Pex.demand c) := by
  apply nwcm_feasible Pex (by decide) (by decide)
  · intro r c
    rcases r with _ | _ | r <;> rcases c with _ | _ | c <;> simp [Pex]
  · intro i
    rcases i with _ | _ | i <;> simp [Pex]
  · intro j
    rcases j with _ | _ | j <;> simp [Pex]
  · norm_num [Pex, Finset.sum_range_succ]

/-- C10.  For every balanced instance with non-negative supply and demand,
the `nwcm` loop terminates within `rows + cols - 1` iterations: running
the fueled loop with exactly that much fuel already produces a result. -/
theorem nwcm_terminates (P : TP) (hrows : 1 ≤ P.rows) (hcols : 1 ≤ P.cols)
    (hs : ∀ i, 0 ≤ P.supply i) (hd : ∀ j, 0 ≤ P.demand j)
    (hbal : ∑ i in Finset.range P.rows, P.supply i = ∑ j in Finset.range P.cols, P.demand j) :
    (nwcmGo P (P.rows + P.cols - 1) (nwcmInit P)).isSome := by
  apply nwcmGo_isSome
  simp only [nwcmInit]
  omega

theorem nwcm_terminates_witness : (nwcmGo Pex (Pex.rows + Pex.cols - 1) (nwcmInit Pex)).isSome := by
  apply nwcm_terminates Pex (by decide) (by decide)
  · intro i
    rcases i with _ | _ | i <;> simp [Pex]
  · intro j
    rcases j with _ | _ | j <;> simp [Pex]
  · norm_num [Pex, Finset.sum_range_succ]

/-! ## Degeneracy repair (`fix_degeneracy`) -/

/-- The row-major cell scan order `for r in range(rows): for c in range(cols)`. -/
def cellsList (P : TP) : List Cell :=
  (List.range P.rows).flatMap fun r => (List.range P.cols).map fun c => (r, c)

lemma mem_cellsList (P : TP) (e : Cell) :
    e ∈ cellsList P ↔ e.1 < P.rows ∧ e.2 < P.cols := by
  cases e with
  | mk r c =>
      simp only [cellsList, List.mem_flatMap, List.mem_map, List.mem_range]
      constructor
      · rintro ⟨r2, hr2, c2, hc2, h⟩
        cases h
        exact ⟨hr2, hc2⟩
      · rintro ⟨h1, h2⟩
        exact ⟨r, h1, c, h2, rfl⟩

lemma cellsList_nodup (P : TP) : (cellsList P).Nodup := by
  unfold cellsList
  rw [List.nodup_flatMap]
  refine ⟨?_, ?_⟩
  · intro r _
    refine (List.nodup_range _).map ?_
    intro a b h
    injection h with h1 h2
  · refine (List.nodup_range P.rows).imp ?_
    intro r1 r2 hne
    intro e he1 he2
    simp only [List.mem_map] at he1 he2
    obtain ⟨c1, _, rfl⟩ := he1
    obtain ⟨c2, _, h⟩ := he2
    exact hne (congrArg Prod.fst h).symm

/-- The conversion loop of `fix_degeneracy`: scan cells in row-major order,
turn cells that are exactly `0` into epsilon markers, stop as soon as the
count reaches the requirement (`n` is the number of conversions still
needed). -/
def fixDegGo : List Cell → ℕ → Alloc → Alloc
  | [], _, A => A
  | (r, c) :: rest, n, A =>
      if n = 0 then A
      else if A r c = 0 then
        if n = 1 then setA A r c eps
        else fixDegGo rest (n - 1) (setA A r c eps)
      else fixDegGo rest n A

/-- `fix_degeneracy`. -/
def fix_degeneracy (P : TP) (A : Alloc) : Alloc :=
  if countPos P A < P.rows + P.cols - 1 then
    fixDegGo (cellsList P) (P.rows + P.cols - 1 - countPos P A) A
  else A

lemma countPos_setA_eps (P : TP) (A : Alloc) {r c : ℕ} (hr : r < P.rows)
    (hc : c < P.cols) (hz : A r c = 0) :
    countPos P (setA A r c eps) = countPos P A + 1 := by
  unfold countPos
  have hset : ((Finset.range P.rows ×ˢ Finset.range P.cols).filter
      fun e => 0 < setA A r c eps e.1 e.2) =
      insert (r, c) ((Finset.range P.rows ×ˢ Finset.range P.cols).filter
        fun e => 0 < A e.1 e.2) := by
    ext x
    simp only [Finset.mem_filter, Finset.mem_insert, Finset.mem_product, Finset.mem_range]
    constructor
    · rintro ⟨⟨hx1, hx2⟩, hpos⟩
      by_cases hx : x = (r, c)
      · exact Or.inl hx
      · right
        refine ⟨⟨hx1, hx2⟩, ?_⟩
        rwa [setA_other A r c eps (by
          rintro ⟨ha, hb⟩
          exact hx (Prod.ext ha hb))] at hpos
    · rintro (rfl | ⟨⟨hx1, hx2⟩, hpos⟩)
      · refine ⟨⟨hr, hc⟩, ?_⟩
        rw [setA_same]
        exact eps_pos
      · refine ⟨⟨hx1, hx2⟩, ?_⟩
        by_cases hx : x = (r, c)
        · subst hx
          simp only at hpos
          rw [hz] at hpos
          exact absurd hpos (lt_irrefl 0)
        · rwa [setA_other A r c eps (by
            rintro ⟨ha, hb⟩
            exact hx (Prod.ext ha hb))]
  rw [hset, Finset.card_insert_of_not_mem]
  simp only [Finset.mem_filter, not_and]
  intro _
  rw [hz]
  exact lt_irrefl 0

/-- `fixDegGo` performs exactly `n` conversions when at least `n` zero
cells remain in the scan list. -/
lemma fixDegGo_count (P : TP) :
    ∀ (l : List Cell) (n : ℕ) (A : Alloc), l.Nodup →
      (∀ e ∈ l, e.1 < P.rows ∧ e.2 < P.cols) →
      n ≤ (l.filter fun e => A e.1 e.2 = 0).length →
      countPos P (fixDegGo l n A) = countPos P A + n := by
  intro l
  induction l with
  | nil =>
      intro n A _ _ hn
      simp only [List.filter_nil, List.length_nil, Nat.le_zero] at hn
      subst hn
      rfl
  | cons e rest ih =>
      intro n A hnd hgrid hn
      obtain ⟨r, c⟩ := e
      by_cases hn0 : n = 0
      · subst hn0
        unfold fixDegGo
        rw [if_pos rfl]
        omega
      · unfold fixDegGo
        rw [if_neg hn0]
        have hgr := hgrid (r, c) (List.mem_cons_self _ _)
        by_cases hz : A r c = 0
        · rw [if_pos hz]
          have hcnt := countPos_setA_eps P A hgr.1 hgr.2 hz
          rw [List.filter_cons_of_pos (by simpa using hz), List.length_cons] at hn
          by_cases hn1 : n = 1
          · rw [if_pos hn1, hn1, hcnt]
          · rw [if_neg hn1]
            have hrest : ∀ e2 ∈ rest, A e2.1 e2.2 = 0 ↔ setA A r c eps e2.1 e2.2 = 0 := by
              intro e2 he2
              have hne : ¬(e2.1 = r ∧ e2.2 = c) := by
                rintro ⟨h1, h2⟩
                have : e2 = (r, c) := Prod.ext h1 h2
                subst this
                exact (List.nodup_cons.mp hnd).1 he2
              rw [setA_other A r c eps hne]
            have hlen : (rest.filter fun e => setA A r c eps e.1 e.2 = 0).length =
                (rest.filter fun e => A e.1 e.2 = 0).length := by
              rw [List.filter_congr]
              intro e2 he2
              simp only [decide_eq_decide]
              exact (hrest e2 he2).symm
            have hih := ih (n - 1) (setA A r c eps) (List.nodup_cons.mp hnd).2
              (fun e2 he2 => hgrid e2 (List.mem_cons_of_mem _ he2)) (by
                rw [hlen]
                omega)
            rw [hih, hcnt]
            omega
        · rw [if_neg hz]
          rw [List.filter_cons_of_neg (by simpa using hz)] at hn
          exact ih n A (List.nodup_cons.mp hnd).2
            (fun e2 he2 => hgrid e2 (List.mem_cons_of_mem _ he2)) hn

/-- With non-negative entries, the grid splits into positive cells and
zero cells, so the number of zero cells in the scan list is the grid size
minus `countPos`. -/
lemma zeros_length (P : TP) (A : Alloc) (hnn : ∀ r c, 0 ≤ A r c) :
    ((cellsList P).filter fun e => A e.1 e.2 = 0).length + countPos P A =
      P.rows * P.cols := by
  have h1 : ((cellsList P).filter fun e => A e.1 e.2 = 0).length =
      ((Finset.range P.rows ×ˢ Finset.range P.cols).filter fun e => A e.1 e.2 = 0).card := by
    rw [← List.toFinset_card_of_nodup ((cellsList_nodup P).filter _)]
    congr 1
    ext x
    simp only [List.mem_toFinset, List.mem_filter, mem_cellsList, Finset.mem_filter,
      Finset.mem_product, Finset.mem_range, decide_eq_true_eq]
  rw [h1]
  unfold countPos
  have h2 : ((Finset.range P.rows ×ˢ Finset.range P.cols).filter fun e => 0 < A e.1 e.2) =
      ((Finset.range P.rows ×ˢ Finset.range P.cols).filter fun e => ¬(A e.1 e.2 = 0)) := by
    apply Finset.filter_congr
    intro e _
    constructor
    · intro h h2
      rw [h2] at h
      exact absurd h (lt_irrefl 0)
    · intro h
      exact lt_of_le_of_ne (hnn e.1 e.2) (Ne.symm h)
  rw [h2, Finset.filter_card_add_filter_neg_card_eq_card, Finset.card_product,
    Finset.card_range, Finset.card_range]

lemma req_le_grid (P : TP) (hr : 1 ≤ P.rows) (hc : 1 ≤ P.cols) :
    P.rows + P.cols - 1 ≤ P.rows * P.cols := by
  obtain ⟨a, ha⟩ := Nat.exists_eq_add_of_le hr
  obtain ⟨b, hb⟩ := Nat.exists_eq_add_of_le hc
  rw [ha, hb]
  calc 1 + a + (1 + b) - 1 = 1 + a + b := by omega
    _ ≤ 1 + a + b + a * b := Nat.le_add_right _ _
    _ = (1 + a) * (1 + b) := by ring

/-- Core of C8: starting from a state with at most `rows + cols - 1`
positive cells, `fix_degeneracy` ends with exactly `rows + cols - 1`. -/
lemma fix_degeneracy_count (P : TP) (A : Alloc) (hr : 1 ≤ P.rows) (hc : 1 ≤ P.cols)
    (hnn : ∀ r c, 0 ≤ A r c) (hle : countPos P A ≤ P.rows + P.cols - 1) :
    countPos P (fix_degeneracy P A) = P.rows + P.cols - 1 := by
  unfold fix_degeneracy
  by_cases h : countPos P A < P.rows + P.cols - 1
  · rw [if_pos h]
    rw [fixDegGo_count P (cellsList P) _ A (cellsList_nodup P)
      (fun e he => (mem_cellsList P e).mp he) ?_]
    · omega
    · have hz := zeros_length P A hnn
      have hreq := req_le_grid P hr hc
      omega
  · rw [if_neg h]
    omega

/-- Every cell is either untouched by `fixDegGo` or was `0` and became
the epsilon marker. -/
lemma fixDegGo_cases :
    ∀ (l : List Cell) (n : ℕ) (A : Alloc) (i j : ℕ),
      fixDegGo l n A i j = A i j ∨ (A i j = 0 ∧ fixDegGo l n A i j = eps) := by
  intro l
  induction l with
  | nil => intro n A i j; left; rfl
  | cons e rest ih =>
      intro n A i j
      obtain ⟨r, c⟩ := e
      unfold fixDegGo
      by_cases hn0 : n = 0
      · rw [if_pos hn0]; left; rfl
      rw [if_neg hn0]
      by_cases hz : A r c = 0
      · rw [if_pos hz]
        by_cases hn1 : n = 1
        · rw [if_pos hn1]
          by_cases hij : i = r ∧ j = c
          · obtain ⟨rfl, rfl⟩ := hij
            right
            exact ⟨hz, setA_same A i j eps⟩
          · left
            exact setA_other A r c eps hij
        · rw [if_neg hn1]
          rcases ih (n - 1) (setA A r c eps) i j with h | ⟨h0, he⟩
          · rw [h]
            by_cases hij : i = r ∧ j = c
            · obtain ⟨rfl, rfl⟩ := hij
              right
              exact ⟨hz, setA_same A i j eps⟩
            · left
              exact setA_other A r c eps hij
          · right
            refine ⟨?_, he⟩
            by_cases hij : i = r ∧ j = c
            · obtain ⟨rfl, rfl⟩ := hij
              rw [setA_same] at h0
              exact absurd h0 (ne_of_gt eps_pos)
            · rwa [setA_other A r c eps hij] at h0
      · rw [if_neg hz]
        exact ih n A i j

lemma fix_degeneracy_cases (P : TP) (A : Alloc) (i j : ℕ) :
    fix_degeneracy P A i j = A i j ∨ (A i j = 0 ∧ fix_degeneracy P A i j = eps) := by
  unfold fix_degeneracy
  by_cases h : countPos P A < P.rows + P.cols - 1
  · rw [if_pos h]
    exact fixDegGo_cases (cellsList P) _ A i j
  · rw [if_neg h]
    left
    rfl

lemma fix_degeneracy_nonneg (P : TP) (A : Alloc) (hnn : ∀ r c, 0 ≤ A r c) :
    ∀ r c, 0 ≤ fix_degeneracy P A r c := by
  intro r c
  rcases fix_degeneracy_cases P A r c with h | ⟨_, h⟩
  · rw [h]; exact hnn r c
  · rw [h]; exact le_of_lt eps_pos

lemma fix_degeneracy_basic_mono (P : TP) (A : Alloc) {r c : ℕ}
    (h : isBasic A r c) : isBasic (fix_degeneracy P A) r c := by
  rw [isBasic_iff_pos] at h ⊢
  rcases fix_degeneracy_cases P A r c with h2 | ⟨h0, h2⟩
  · rwa [h2]
  · rw [h0] at h
    exact absurd h (lt_irrefl 0)

/-! ## Dual-variable computation (`calculate_uv`) -/

/-- The pair of partial potential vectors `u`, `v` (`None` = unknown). -/
abbrev UV := (ℕ → Option ℚ) × (ℕ → Option ℚ)

/-- The body of the propagation pass for one cell `(r, c)`:
derive the unknown side of a basic cell from the known side. -/
def uvCell (P : TP) (A : Alloc) (rc : Cell) (st : UV × Bool) : UV × Bool :=
  if isBasic A rc.1 rc.2 then
    match st.1.1 rc.1, st.1.2 rc.2 with
    | some a, none =>
        ((st.1.1, Function.update st.1.2 rc.2 (some (P.costs rc.1 rc.2 - a))), true)
    | none, some b =>
        ((Function.update st.1.1 rc.1 (some (P.costs rc.1 rc.2 - b)), st.1.2), true)
    | _, _ => st
  else st

/-- One full pass of the `while changed` loop over all cells in row-major
order, with the `changed` flag starting `false`. -/
def uvPass (P : TP) (A : Alloc) (uv : UV) : UV × Bool :=
  (cellsList P).foldl (fun st rc => uvCell P A rc st) (uv, false)

/-- `u = [None]*rows; v = [None]*cols; u[0] = 0`. -/
def uvInit : UV := (fun r => if r = 0 then some (0 : ℚ) else none, fun _ => none)

/-- The `while changed` fixed-point loop, fueled. -/
def uvLoop (P : TP) (A : Alloc) : ℕ → UV → Option UV
  | 0, _ => none
  | f + 1, uv =>
      match uvPass P A uv with
      | (uv2, true) => uvLoop P A f uv2
      | (uv2, false) => some uv2

/-- `calculate_uv`: run the propagation to its fixed point, then return the
sentinel `none` when `None in u or None in v`.  Fuel `rows + cols + 1` is
proved sufficient (`uvLoop_isSome`), so the fuel-exhaustion case conflated
into the sentinel never occurs. -/
def calculate_uv (P : TP) (A : Alloc) : Option UV :=
  match uvLoop P A (P.rows + P.cols + 1) uvInit with
  | none => none
  | some uv =>
      if (∃ r ∈ List.range P.rows, uv.1 r = none) ∨ (∃ c ∈ List.range P.cols, uv.2 c = none)
      then none
      else some uv

/-- Number of known entries of a partial vector below a bound. -/
def kcnt (n : ℕ) (w : ℕ → Option ℚ) : ℕ :=
  ((Finset.range n).filter fun x => (w x).isSome).card

/-- Total number of known potentials. -/
def kcount (P : TP) (uv : UV) : ℕ := kcnt P.rows uv.1 + kcnt P.cols uv.2

lemma kcnt_le (n : ℕ) (w : ℕ → Option ℚ) : kcnt n w ≤ n := by
  unfold kcnt
  calc ((Finset.range n).filter fun x => (w x).isSome).card
      ≤ (Finset.range n).card := Finset.card_filter_le _ _
    _ = n := Finset.card_range n

lemma kcnt_update (n : ℕ) (w : ℕ → Option ℚ) {c : ℕ} (hc : c < n) (hnone : w c = none)
    (q : ℚ) : kcnt n (Function.update w c (some q)) = kcnt n w + 1 := by
  unfold kcnt
  have hset : ((Finset.range n).filter fun x => (Function.update w c (some q) x).isSome) =
      insert c ((Finset.range n).filter fun x => (w x).isSome) := by
    ext x
    simp only [Finset.mem_filter, Finset.mem_insert, Finset.mem_range]
    constructor
    · rintro ⟨hx, hsome⟩
      by_cases hxc : x = c
      · exact Or.inl hxc
      · right
        rw [Function.update_noteq hxc] at hsome
        exact ⟨hx, hsome⟩
    · rintro (rfl | ⟨hx, hsome⟩)
      · simp [hc]
      · refine ⟨hx, ?_⟩
        by_cases hxc : x = c
        · subst hxc
          rw [hnone] at hsome
          simp at hsome
        · rwa [Function.update_noteq hxc]
  rw [hset, Finset.card_insert_of_not_mem]
  simp only [Finset.mem_filter, not_and]
  intro _
  rw [hnone]
  simp

/-- `uvCell` either leaves the state unchanged or fires, recording one new
known potential. -/
lemma uvCell_cases (P : TP) (A : Alloc) (rc : Cell) (st : UV × Bool) :
    uvCell P A rc st = st ∨
      (isBasic A rc.1 rc.2 ∧
        ((∃ a, st.1.1 rc.1 = some a ∧ st.1.2 rc.2 = none ∧
            uvCell P A rc st =
              ((st.1.1, Function.update st.1.2 rc.2 (some (P.costs rc.1 rc.2 - a))), true)) ∨
         (∃ b, st.1.1 rc.1 = none ∧ st.1.2 rc.2 = some b ∧
            uvCell P A rc st =
              ((Function.update st.1.1 rc.1 (some (P.costs rc.1 rc.2 - b)), st.1.2), true)))) := by
  unfold uvCell
  by_cases hb : isBasic A rc.1 rc.2
  · rw [if_pos hb]
    rcases h1 : st.1.1 rc.1 with _ | a <;> rcases h2 : st.1.2 rc.2 with _ | b
    · left; rfl
    · right
      exact ⟨hb, Or.inr ⟨b, rfl, rfl, rfl⟩⟩
    · right
      exact ⟨hb, Or.inl ⟨a, rfl, rfl, rfl⟩⟩
    · left; rfl
  · rw [if_neg hb]
    left; rfl

/-! ## The derivation structure of the propagation

Vertices `Sum.inl r` (rows) and `Sum.inr c` (columns); a basic cell is an
edge between its row and its column.  The propagation discovers vertices
one at a time: a `Layered` list records the firing cells in order, each
connecting an already-known vertex to a new one. -/

abbrev V := ℕ ⊕ ℕ

def vrow (e : Cell) : V := Sum.inl e.1

def vcol (e : Cell) : V := Sum.inr e.2

inductive Layered : Set V → List Cell → Prop
  | nil (S : Set V) : Layered S []
  | consRow (S : Set V) (e : Cell) (l : List Cell) :
      vrow e ∈ S → vcol e ∉ S → Layered (S ∪ {vcol e}) l → Layered S (e :: l)
  | consCol (S : Set V) (e : Cell) (l : List Cell) :
      vcol e ∈ S → vrow e ∉ S → Layered (S ∪ {vrow e}) l → Layered S (e :: l)

/-- The vertex set accumulated along a list of edges. -/
def laySet (S : Set V) : List Cell → Set V
  | [] => S
  | e :: l => laySet (S ∪ {vrow e, vcol e}) l

lemma laySet_subset (l : List Cell) : ∀ (S : Set V), S ⊆ laySet S l := by
  induction l with
  | nil => intro S; exact subset_refl S
  | cons e t ih =>
      intro S
      exact subset_trans (fun x hx => Set.mem_union_left _ hx) (ih _)

lemma laySet_append (l1 l2 : List Cell) :
    ∀ S, laySet S (l1 ++ l2) = laySet (laySet S l1) l2 := by
  induction l1 with
  | nil => intro S; rfl
  | cons e t ih => intro S; exact ih _

lemma union_pair_of_mem_left {S : Set V} {x y : V} (hx : x ∈ S) :
    S ∪ {x, y} = S ∪ {y} := by
  ext z
  simp only [Set.mem_union, Set.mem_insert_iff, Set.mem_singleton_iff]
  constructor
  · rintro (h | rfl | h)
    · exact Or.inl h
    · exact Or.inl hx
    · exact Or.inr h
  · rintro (h | h)
    · exact Or.inl h
    · exact Or.inr (Or.inr h)

lemma union_pair_of_mem_right {S : Set V} {x y : V} (hy : y ∈ S) :
    S ∪ {x, y} = S ∪ {x} := by
  ext z
  simp only [Set.mem_union, Set.mem_insert_iff, Set.mem_singleton_iff]
  constructor
  · rintro (h | rfl | rfl)
    · exact Or.inl h
    · exact Or.inr rfl
    · exact Or.inl hy
  · rintro (h | rfl)
    · exact Or.inl h
    · exact Or.inr (Or.inl rfl)

lemma laySet_cons_row {S : Set V} {f : Cell} (hf : vrow f ∈ S) (l : List Cell) :
    laySet S (f :: l) = laySet (S ∪ {vcol f}) l := by
  show laySet (S ∪ {vrow f, vcol f}) l = _
  rw [union_pair_of_mem_left hf]

lemma laySet_cons_col {S : Set V} {f : Cell} (hf : vcol f ∈ S) (l : List Cell) :
    laySet S (f :: l) = laySet (S ∪ {vrow f}) l := by
  show laySet (S ∪ {vrow f, vcol f}) l = _
  rw [union_pair_of_mem_right hf]

lemma layered_snoc {S : Set V} {L : List Cell} (h : Layered S L) (e : Cell) :
    (vrow e ∈ laySet S L ∧ vcol e ∉ laySet S L) ∨
      (vcol e ∈ laySet S L ∧ vrow e ∉ laySet S L) →
    Layered S (L ++ [e]) := by
  induction h with
  | nil S =>
      rintro (⟨h1, h2⟩ | ⟨h1, h2⟩)
      · exact Layered.consRow S e [] h1 h2 (Layered.nil _)
      · exact Layered.consCol S e [] h1 h2 (Layered.nil _)
  | consRow S f l hf1 hf2 _ ih =>
      intro hcase
      rw [laySet_cons_row hf1] at hcase
      exact Layered.consRow S f (l ++ [e]) hf1 hf2 (ih hcase)
  | consCol S f l hf1 hf2 _ ih =>
      intro hcase
      rw [laySet_cons_col hf1] at hcase
      exact Layered.consCol S f (l ++ [e]) hf1 hf2 (ih hcase)

/-- Every edge of a layered list has at least one endpoint outside the
starting set. -/
lemma layered_new {S : Set V} {L : List Cell} (h : Layered S L) :
    ∀ e ∈ L, vrow e ∉ S ∨ vcol e ∉ S := by
  induction h with
  | nil S => intro e he; exact absurd he (List.not_mem_nil e)
  | consRow S f l hf1 hf2 _ ih =>
      intro e he
      rcases List.mem_cons.mp he with rfl | he2
      · exact Or.inr hf2
      · rcases ih e he2 with h2 | h2
        · exact Or.inl fun hx => h2 (Or.inl hx)
        · exact Or.inr fun hx => h2 (Or.inl hx)
  | consCol S f l hf1 hf2 _ ih =>
      intro e he
      rcases List.mem_cons.mp he with rfl | he2
      · exact Or.inl hf2
      · rcases ih e he2 with h2 | h2
        · exact Or.inl fun hx => h2 (Or.inl hx)
        · exact Or.inr fun hx => h2 (Or.inl hx)

lemma layered_nodup {S : Set V} {L : List Cell} (h : Layered S L) : L.Nodup := by
  induction h with
  | nil S => exact List.nodup_nil
  | consRow S f l hf1 hf2 hl ih =>
      rw [List.nodup_cons]
      refine ⟨?_, ih⟩
      intro hmem
      rcases layered_new hl f hmem with h2 | h2
      · exact h2 (Or.inl hf1)
      · exact h2 (Or.inr rfl)
  | consCol S f l hf1 hf2 hl ih =>
      rw [List.nodup_cons]
      refine ⟨?_, ih⟩
      intro hmem
      rcases layered_new hl f hmem with h2 | h2
      · exact h2 (Or.inr rfl)
      · exact h2 (Or.inl hf1)

/-- The set of potentials currently known. -/
def knownSet (uv : UV) : Set V :=
  fun x => Sum.elim (fun r => (uv.1 r).isSome = true) (fun c => (uv.2 c).isSome = true) x

lemma knownSet_update_v (u v : ℕ → Option ℚ) (c : ℕ) (q : ℚ) :
    knownSet (u, Function.update v c (some q)) = knownSet (u, v) ∪ {Sum.inr c} := by
  ext x
  rw [Set.mem_union, Set.mem_singleton_iff]
  cases x with
  | inl r =>
      constructor
      · intro h
        exact Or.inl h
      · rintro (h | h)
        · exact h
        · exact absurd h (by simp)
  | inr c2 =>
      by_cases hc : c2 = c
      · subst hc
        constructor
        · intro _
          exact Or.inr rfl
        · intro _
          show (Function.update v c2 (some q) c2).isSome = true
          rw [Function.update_same]
          rfl
      · constructor
        · intro h
          have h2 : (Function.update v c (some q) c2).isSome = true := h
          rw [Function.update_noteq hc] at h2
          exact Or.inl h2
        · rintro (h | h)
          · show (Function.update v c (some q) c2).isSome = true
            rw [Function.update_noteq hc]
            exact h
          · exact absurd (Sum.inr_injective h) hc

lemma knownSet_update_u (u v : ℕ → Option ℚ) (r : ℕ) (q : ℚ) :
    knownSet (Function.update u r (some q), v) = knownSet (u, v) ∪ {Sum.inl r} := by
  ext x
  rw [Set.mem_union, Set.mem_singleton_iff]
  cases x with
  | inr c =>
      constructor
      · intro h
        exact Or.inl h
      · rintro (h | h)
        · exact h
        · exact absurd h (by simp)
  | inl r2 =>
      by_cases hr : r2 = r
      · subst hr
        constructor
        · intro _
          exact Or.inr rfl
        · intro _
          show (Function.update u r2 (some q) r2).isSome = true
          rw [Function.update_same]
          rfl
      · constructor
        · intro h
          have h2 : (Function.update u r (some q) r2).isSome = true := h
          rw [Function.update_noteq hr] at h2
          exact Or.inl h2
        · rintro (h | h)
          · show (Function.update u r (some q) r2).isSome = true
            rw [Function.update_noteq hr]
            exact h
          · exact absurd (Sum.inl_injective h) hr

/-- Invariant of the propagation state: `u[0] = 0` stays pinned, and the
firings so far form a layered list of basic in-grid cells whose equations
hold, covering exactly the known potentials, one new potential each. -/
def UVInv (P : TP) (A : Alloc) (uv : UV) : Prop :=
  uv.1 0 = some 0 ∧
  ∃ L : List Cell,
    Layered {Sum.inl 0} L ∧
    (∀ e ∈ L, e.1 < P.rows ∧ e.2 < P.cols ∧ isBasic A e.1 e.2 ∧
      ∃ a b, uv.1 e.1 = some a ∧ uv.2 e.2 = some b ∧ P.costs e.1 e.2 = a + b) ∧
    knownSet uv = laySet {Sum.inl 0} L ∧
    L.length + 1 = kcount P uv

lemma uvInit_inv (P : TP) (A : Alloc) (hrows : 1 ≤ P.rows) : UVInv P A uvInit := by
  refine ⟨rfl, [], Layered.nil _, ?_, ?_, ?_⟩
  · intro e he
    exact absurd he (List.not_mem_nil e)
  · ext x
    cases x with
    | inl r =>
        show ((if r = 0 then some (0 : ℚ) else none).isSome = true) ↔ _
        by_cases hr : r = 0
        · subst hr
          simp [laySet, Set.mem_singleton_iff]
        · simp [hr, laySet, Set.mem_singleton_iff, Sum.inl.injEq]
    | inr c =>
        show ((none : Option ℚ).isSome = true) ↔ _
        simp [laySet, Set.mem_singleton_iff]
  · show 0 + 1 = kcount P uvInit
    have h1 : kcnt P.rows uvInit.1 = 1 := by
      unfold kcnt uvInit
      have : ((Finset.range P.rows).filter fun x =>
          ((if x = 0 then some (0 : ℚ) else none).isSome)) = {0} := by
        ext x
        simp only [Finset.mem_filter, Finset.mem_range, Finset.mem_singleton]
        constructor
        · rintro ⟨_, hsome⟩
          by_cases hx : x = 0
          · exact hx
          · rw [if_neg hx] at hsome
            simp at hsome
        · rintro rfl
          simp
          omega
      rw [this, Finset.card_singleton]
    have h2 : kcnt P.cols uvInit.2 = 0 := by
      unfold kcnt uvInit
      simp
    unfold kcount
    omega

lemma uvCell_fire_u {P : TP} {A : Alloc} {rc : Cell} {st : UV × Bool} {a : ℚ}
    (hb : isBasic A rc.1 rc.2) (ha : st.1.1 rc.1 = some a) (hv : st.1.2 rc.2 = none) :
    uvCell P A rc st =
      ((st.1.1, Function.update st.1.2 rc.2 (some (P.costs rc.1 rc.2 - a))), true) := by
  unfold uvCell
  rw [if_pos hb, ha, hv]

lemma uvCell_fire_v {P : TP} {A : Alloc} {rc : Cell} {st : UV × Bool} {b : ℚ}
    (hb : isBasic A rc.1 rc.2) (ha : st.1.1 rc.1 = none) (hv : st.1.2 rc.2 = some b) :
    uvCell P A rc st =
      ((Function.update st.1.1 rc.1 (some (P.costs rc.1 rc.2 - b)), st.1.2), true) := by
  unfold uvCell
  rw [if_pos hb, ha, hv]

lemma uvCell_inv {P : TP} {A : Alloc} {rc : Cell} (hr : rc.1 < P.rows) (hc : rc.2 < P.cols)
    {st : UV × Bool} (hinv : UVInv P A st.1) : UVInv P A (uvCell P A rc st).1 := by
  rcases uvCell_cases P A rc st with heq | ⟨hb, hfire⟩
  · rw [heq]
    exact hinv
  obtain ⟨h0, L, hlay, hedges, hknown, hlen⟩ := hinv
  rcases hfire with ⟨a, ha, hv, heq⟩ | ⟨b, ha, hv, heq⟩
  · -- fires on the column side: v[c] becomes known
    rw [heq]
    refine ⟨h0, L ++ [rc], ?_, ?_, ?_, ?_⟩
    · apply layered_snoc hlay rc
      left
      constructor
      · rw [← hknown]
        show (st.1.1 rc.1).isSome = true
        rw [ha]
        rfl
      · rw [← hknown]
        show ¬((st.1.2 rc.2).isSome = true)
        rw [hv]
        simp
    · intro e he
      rcases List.mem_append.mp he with he2 | he2
      · obtain ⟨hb1, hb2, hb3, x, y, hx, hy, hxy⟩ := hedges e he2
        refine ⟨hb1, hb2, hb3, x, y, hx, ?_, hxy⟩
        show Function.update st.1.2 rc.2 _ e.2 = some y
        have hne : e.2 ≠ rc.2 := by
          intro hh
          rw [hh, hv] at hy
          exact absurd hy (by simp)
        rw [Function.update_noteq hne]
        exact hy
      · have : e = rc := by simpa using he2
        subst this
        refine ⟨hr, hc, hb, a, P.costs e.1 e.2 - a, ha, ?_, by ring⟩
        show Function.update st.1.2 e.2 _ e.2 = _
        rw [Function.update_same]
    · show knownSet (st.1.1, Function.update st.1.2 rc.2 _) = _
      rw [knownSet_update_v, hknown, laySet_append]
      show _ = laySet (laySet {Sum.inl 0} L) [rc]
      have : laySet (laySet {Sum.inl 0} L) [rc] =
          laySet {Sum.inl 0} L ∪ {vrow rc, vcol rc} := rfl
      rw [this, union_pair_of_mem_left]
      · rfl
      · rw [← hknown]
        show (st.1.1 rc.1).isSome = true
        rw [ha]
        rfl
    · show (L ++ [rc]).length + 1 = kcount P (st.1.1, Function.update st.1.2 rc.2 _)
      rw [List.length_append, List.length_singleton]
      unfold kcount
      show L.length + 1 + 1 = kcnt P.rows st.1.1 + kcnt P.cols (Function.update st.1.2 rc.2 _)
      rw [kcnt_update P.cols st.1.2 hc hv]
      unfold kcount at hlen
      omega
  · -- fires on the row side: u[r] becomes known
    rw [heq]
    have hr0 : rc.1 ≠ 0 := by
      intro hh
      rw [hh, h0] at ha
      exact absurd ha (by simp)
    refine ⟨?_, L ++ [rc], ?_, ?_, ?_, ?_⟩
    · show Function.update st.1.1 rc.1 _ 0 = some 0
      rw [Function.update_noteq (Ne.symm hr0)]
      exact h0
    · apply layered_snoc hlay rc
      right
      constructor
      · rw [← hknown]
        show (st.1.2 rc.2).isSome = true
        rw [hv]
        rfl
      · rw [← hknown]
        show ¬((st.1.1 rc.1).isSome = true)
        rw [ha]
        simp
    · intro e he
      rcases List.mem_append.mp he with he2 | he2
      · obtain ⟨hb1, hb2, hb3, x, y, hx, hy, hxy⟩ := hedges e he2
        refine ⟨hb1, hb2, hb3, x, y, ?_, hy, hxy⟩
        show Function.update st.1.1 rc.1 _ e.1 = some x
        have hne : e.1 ≠ rc.1 := by
          intro hh
          rw [hh, ha] at hx
          exact absurd hx (by simp)
        rw [Function.update_noteq hne]
        exact hx
      · have : e = rc := by simpa using he2
        subst this
        refine ⟨hr, hc, hb, P.costs e.1 e.2 - b, b, ?_, hv, by ring⟩
        show Function.update st.1.1 e.1 _ e.1 = _
        rw [Function.update_same]
    · show knownSet (Function.update st.1.1 rc.1 _, st.1.2) = _
      rw [knownSet_update_u, hknown, laySet_append]
      have : laySet (laySet {Sum.inl 0} L) [rc] =
          laySet {Sum.inl 0} L ∪ {vrow rc, vcol rc} := rfl
      rw [this, union_pair_of_mem_right]
      · rfl
      · rw [← hknown]
        show (st.1.2 rc.2).isSome = true
        rw [hv]
        rfl
    · show (L ++ [rc]).length + 1 = kcount P (Function.update st.1.1 rc.1 _, st.1.2)
      rw [List.length_append, List.length_singleton]
      unfold kcount
      show L.length + 1 + 1 = kcnt P.rows (Function.update st.1.1 rc.1 _) + kcnt P.cols st.1.2
      rw [kcnt_update P.rows st.1.1 hr ha]
      unfold kcount at hlen
      omega

lemma foldl_uvCell_inv (P : TP) (A : Alloc) :
    ∀ (l : List Cell) (st : UV × Bool),
      (∀ e ∈ l, e.1 < P.rows ∧ e.2 < P.cols) → UVInv P A st.1 →
      UVInv P A (l.foldl (fun st rc => uvCell P A rc st) st).1 := by
  intro l
  induction l with
  | nil => intro st _ h; exact h
  | cons e t ih =>
      intro st hb h
      have he := hb e (List.mem_cons_self _ _)
      exact ih _ (fun x hx => hb x (List.mem_cons_of_mem _ hx))
        (uvCell_inv he.1 he.2 h)

lemma uvCell_kcount_mono (P : TP) (A : Alloc) {rc : Cell} (hr : rc.1 < P.rows)
    (hc : rc.2 < P.cols) (st : UV × Bool) :
    kcount P st.1 ≤ kcount P (uvCell P A rc st).1 := by
  rcases uvCell_cases P A rc st with heq | ⟨_, ⟨a, ha, hv, heq⟩ | ⟨b, ha, hv, heq⟩⟩
  · rw [heq]
  · rw [heq]
    show kcount P st.1 ≤ kcnt P.rows st.1.1 + kcnt P.cols (Function.update st.1.2 rc.2 _)
    rw [kcnt_update P.cols st.1.2 hc hv]
    unfold kcount
    omega
  · rw [heq]
    show kcount P st.1 ≤ kcnt P.rows (Function.update st.1.1 rc.1 _) + kcnt P.cols st.1.2
    rw [kcnt_update P.rows st.1.1 hr ha]
    unfold kcount
    omega

lemma foldl_kcount_mono (P : TP) (A : Alloc) :
    ∀ (l : List Cell) (st : UV × Bool),
      (∀ e ∈ l, e.1 < P.rows ∧ e.2 < P.cols) →
      kcount P st.1 ≤ kcount P (l.foldl (fun st rc => uvCell P A rc st) st).1 := by
  intro l
  induction l with
  | nil => intro st _; exact le_refl _
  | cons e t ih =>
      intro st hb
      have he := hb e (List.mem_cons_self _ _)
      exact le_trans (uvCell_kcount_mono P A he.1 he.2 st)
        (ih _ fun x hx => hb x (List.mem_cons_of_mem _ hx))

lemma foldl_flag_true_kcount (P : TP) (A : Alloc) :
    ∀ (l : List Cell) (st : UV × Bool),
      (∀ e ∈ l, e.1 < P.rows ∧ e.2 < P.cols) → st.2 = false →
      (l.foldl (fun st rc => uvCell P A rc st) st).2 = true →
      kcount P st.1 + 1 ≤ kcount P (l.foldl (fun st rc => uvCell P A rc st) st).1 := by
  intro l
  induction l with
  | nil =>
      intro st _ h1 h2
      rw [List.foldl_nil] at h2
      rw [h1] at h2
      exact absurd h2 (by simp)
  | cons e t ih =>
      intro st hb h1 h2
      have he := hb e (List.mem_cons_self _ _)
      rcases uvCell_cases P A e st with heq | ⟨_, ⟨a, ha, hv, heq⟩ | ⟨b, ha, hv, heq⟩⟩
      · rw [List.foldl_cons, heq] at h2 ⊢
        exact ih st (fun x hx => hb x (List.mem_cons_of_mem _ hx)) h1 h2
      · rw [List.foldl_cons, heq]
        refine le_trans ?_ (foldl_kcount_mono P A t _
          fun x hx => hb x (List.mem_cons_of_mem _ hx))
        show kcount P st.1 + 1 ≤ kcnt P.rows st.1.1 + kcnt P.cols (Function.update st.1.2 e.2 _)
        rw [kcnt_update P.cols st.1.2 he.2 hv]
        unfold kcount
        omega
      · rw [List.foldl_cons, heq]
        refine le_trans ?_ (foldl_kcount_mono P A t _
          fun x hx => hb x (List.mem_cons_of_mem _ hx))
        show kcount P st.1 + 1 ≤ kcnt P.rows (Function.update st.1.1 e.1 _) + kcnt P.cols st.1.2
        rw [kcnt_update P.rows st.1.1 he.1 ha]
        unfold kcount
        omega

/-- A cell is at a propagation fixed point when it is not basic or both of
its potentials have the same knowledge status. -/
def noFire (A : Alloc) (uv : UV) (rc : Cell) : Prop :=
  isBasic A rc.1 rc.2 → ((uv.1 rc.1).isSome ↔ (uv.2 rc.2).isSome)

lemma uvCell_flag_false {P : TP} {A : Alloc} {rc : Cell} {st : UV × Bool}
    (h : (uvCell P A rc st).2 = false) :
    uvCell P A rc st = st ∧ noFire A st.1 rc := by
  rcases uvCell_cases P A rc st with heq | ⟨_, ⟨a, ha, hv, heq⟩ | ⟨b, ha, hv, heq⟩⟩
  · refine ⟨heq, ?_⟩
    intro hb
    constructor
    · intro hu
      by_contra hvn
      rw [Option.not_isSome_iff_eq_none] at hvn
      obtain ⟨a, ha⟩ := Option.isSome_iff_exists.mp hu
      rw [uvCell_fire_u hb ha hvn] at h
      exact absurd h (by simp)
    · intro hv
      by_contra hun
      rw [Option.not_isSome_iff_eq_none] at hun
      obtain ⟨b, hb2⟩ := Option.isSome_iff_exists.mp hv
      rw [uvCell_fire_v hb hun hb2] at h
      exact absurd h (by simp)
  · rw [heq] at h
    exact absurd h (by simp)
  · rw [heq] at h
    exact absurd h (by simp)

lemma foldl_flag_false (P : TP) (A : Alloc) :
    ∀ (l : List Cell) (st : UV × Bool),
      (l.foldl (fun st rc => uvCell P A rc st) st).2 = false →
      l.foldl (fun st rc => uvCell P A rc st) st = st ∧ ∀ rc ∈ l, noFire A st.1 rc := by
  intro l
  induction l with
  | nil =>
      intro st h
      exact ⟨rfl, fun rc hrc => absurd hrc (List.not_mem_nil rc)⟩
  | cons e t ih =>
      intro st h
      rw [List.foldl_cons] at h ⊢
      obtain ⟨h1, h2⟩ := ih (uvCell P A e st) h
      have hflag : (uvCell P A e st).2 = false := by
        rw [h1] at h
        exact h
      obtain ⟨h3, h4⟩ := uvCell_flag_false hflag
      rw [h3] at h1 h2
      refine ⟨?_, ?_⟩
      · rw [h3]
        exact h1
      · intro rc hrc
        rcases List.mem_cons.mp hrc with rfl | hrc2
        · exact h4
        · exact h2 rc hrc2

lemma kcount_le (P : TP) (uv : UV) : kcount P uv ≤ P.rows + P.cols :=
  add_le_add (kcnt_le _ _) (kcnt_le _ _)

lemma uvLoop_isSome (P : TP) (A : Alloc) :
    ∀ f uv, P.rows + P.cols + 1 ≤ f + kcount P uv → (uvLoop P A f uv).isSome := by
  intro f
  induction f with
  | zero =>
      intro uv h
      have := kcount_le P uv
      omega
  | succ f ih =>
      intro uv h
      show (uvLoop P A (f + 1) uv).isSome
      unfold uvLoop
      rcases hp : uvPass P A uv with ⟨uv2, ch⟩
      cases ch with
      | true =>
          simp only
          apply ih
          have hkc : kcount P uv + 1 ≤ kcount P uv2 := by
            have := foldl_flag_true_kcount P A (cellsList P) (uv, false)
              (fun e he => (mem_cellsList P e).mp he) rfl
            unfold uvPass at hp
            rw [hp] at this
            exact this rfl
          omega
      | false => simp only [Option.isSome_some]

lemma uvLoop_spec (P : TP) (A : Alloc) :
    ∀ f uv uv2, uvLoop P A f uv = some uv2 → UVInv P A uv →
      UVInv P A uv2 ∧ ∀ rc ∈ cellsList P, noFire A uv2 rc := by
  intro f
  induction f with
  | zero =>
      intro uv uv2 h
      exact absurd h (by simp [uvLoop])
  | succ f ih =>
      intro uv uv2 h hinv
      unfold uvLoop at h
      rcases hp : uvPass P A uv with ⟨uv3, ch⟩
      rw [hp] at h
      have hinv3 : UVInv P A uv3 := by
        have := foldl_uvCell_inv P A (cellsList P) (uv, false)
          (fun e he => (mem_cellsList P e).mp he) hinv
        unfold uvPass at hp
        rw [hp] at this
        exact this
      cases ch with
      | true => exact ih uv3 uv2 h hinv3
      | false =>
          simp only [Option.some.injEq] at h
          subst h
          obtain ⟨h1, h2⟩ := foldl_flag_false P A (cellsList P) (uv, false) (by
            show (uvPass P A uv).2 = false
            rw [hp])
          have huv : uv3 = uv := by
            have : uvPass P A uv = (uv, false) := h1
            rw [hp] at this
            exact (Prod.mk.injEq _ _ _ _ ▸ this).1
          subst huv
          exact ⟨hinv3, h2⟩

/-- Derivability of a potential by label propagation from `u[0] = 0` over
the basic cells: the spec's notion of the connected constraint graph. -/
inductive Reach (P : TP) (A : Alloc) : V → Prop
  | root : Reach P A (Sum.inl 0)
  | row2col {r c : ℕ} : r < P.rows → c < P.cols → isBasic A r c →
      Reach P A (Sum.inl r) → Reach P A (Sum.inr c)
  | col2row {r c : ℕ} : r < P.rows → c < P.cols → isBasic A r c →
      Reach P A (Sum.inr c) → Reach P A (Sum.inl r)

lemma layered_reach (P : TP) (A : Alloc) :
    ∀ {S L}, Layered S L →
      (∀ x ∈ S, Reach P A x) →
      (∀ e ∈ L, e.1 < P.rows ∧ e.2 < P.cols ∧ isBasic A e.1 e.2) →
      ∀ x ∈ laySet S L, Reach P A x := by
  intro S L h
  induction h with
  | nil S =>
      intro hS _ x hx
      exact hS x hx
  | consRow S f l hf1 hf2 hl ih =>
      intro hS hedges x hx
      rw [laySet_cons_row hf1] at hx
      refine ih ?_ (fun e he => hedges e (List.mem_cons_of_mem _ he)) x hx
      rintro y (hy | hy)
      · exact hS y hy
      · rw [Set.mem_singleton_iff] at hy
        subst hy
        have hf := hedges f (List.mem_cons_self _ _)
        exact Reach.row2col hf.1 hf.2.1 hf.2.2 (hS _ hf1)
  | consCol S f l hf1 hf2 hl ih =>
      intro hS hedges x hx
      rw [laySet_cons_col hf1] at hx
      refine ih ?_ (fun e he => hedges e (List.mem_cons_of_mem _ he)) x hx
      rintro y (hy | hy)
      · exact hS y hy
      · rw [Set.mem_singleton_iff] at hy
        subst hy
        have hf := hedges f (List.mem_cons_self _ _)
        exact Reach.col2row hf.1 hf.2.1 hf.2.2 (hS _ hf1)

lemma reach_known (P : TP) (A : Alloc) {uv : UV} (h0 : uv.1 0 = some 0)
    (hnf : ∀ rc ∈ cellsList P, noFire A uv rc) :
    ∀ x, Reach P A x → x ∈ knownSet uv := by
  intro x hx
  induction hx with
  | root =>
      show (uv.1 0).isSome = true
      rw [h0]
      rfl
  | @row2col r c hr hc hb _ ih =>
      have hnf2 := hnf (r, c) ((mem_cellsList P (r, c)).mpr ⟨hr, hc⟩) hb
      show (uv.2 c).isSome = true
      exact hnf2.mp ih
  | @col2row r c hr hc hb _ ih =>
      have hnf2 := hnf (r, c) ((mem_cellsList P (r, c)).mpr ⟨hr, hc⟩) hb
      show (uv.1 r).isSome = true
      exact hnf2.mpr ih

lemma known_reach (P : TP) (A : Alloc) {uv : UV} (hinv : UVInv P A uv) :
    ∀ x ∈ knownSet uv, Reach P A x := by
  obtain ⟨h0, L, hlay, hedges, hknown, _⟩ := hinv
  intro x hx
  rw [hknown] at hx
  refine layered_reach P A hlay ?_ (fun e he => ⟨(hedges e he).1, (hedges e he).2.1,
    (hedges e he).2.2.1⟩) x hx
  rintro y hy
  rw [Set.mem_singleton_iff] at hy
  subst hy
  exact Reach.root

/-- Unpacking a non-sentinel `calculate_uv` run. -/
lemma calculate_uv_eq_some (P : TP) (A : Alloc) (hrows : 1 ≤ P.rows) {uv : UV}
    (h : calculate_uv P A = some uv) :
    UVInv P A uv ∧ (∀ rc ∈ cellsList P, noFire A uv rc) ∧
      (∀ r < P.rows, (uv.1 r).isSome) ∧ (∀ c < P.cols, (uv.2 c).isSome) := by
  have hsome := uvLoop_isSome P A (P.rows + P.cols + 1) uvInit (by omega)
  obtain ⟨uv1, hloop⟩ := Option.isSome_iff_exists.mp hsome
  unfold calculate_uv at h
  rw [hloop] at h
  dsimp only at h
  by_cases hcond : (∃ r ∈ List.range P.rows, uv1.1 r = none) ∨
      (∃ c ∈ List.range P.cols, uv1.2 c = none)
  · rw [if_pos hcond] at h
    exact absurd h (by simp)
  · rw [if_neg hcond] at h
    simp only [Option.some.injEq] at h
    subst h
    obtain ⟨hinv, hnf⟩ := uvLoop_spec P A _ _ _ hloop (uvInit_inv P A hrows)
    push_neg at hcond
    obtain ⟨hcr, hcc⟩ := hcond
    refine ⟨hinv, hnf, ?_, ?_⟩
    · intro r hr
      have := hcr r (List.mem_range.mpr hr)
      rwa [← Option.ne_none_iff_isSome]
    · intro c hc
      have := hcc c (List.mem_range.mpr hc)
      rwa [← Option.ne_none_iff_isSome]

/-- Unpacking a sentinel `calculate_uv` run. -/
lemma calculate_uv_eq_none (P : TP) (A : Alloc) (hrows : 1 ≤ P.rows)
    (h : calculate_uv P A = none) :
    ∃ uv : UV, UVInv P A uv ∧ (∀ rc ∈ cellsList P, noFire A uv rc) ∧
      ((∃ r < P.rows, uv.1 r = none) ∨ (∃ c < P.cols, uv.2 c = none)) := by
  have hsome := uvLoop_isSome P A (P.rows + P.cols + 1) uvInit (by omega)
  obtain ⟨uv1, hloop⟩ := Option.isSome_iff_exists.mp hsome
  unfold calculate_uv at h
  rw [hloop] at h
  dsimp only at h
  by_cases hcond : (∃ r ∈ List.range P.rows, uv1.1 r = none) ∨
      (∃ c ∈ List.range P.cols, uv1.2 c = none)
  · obtain ⟨hinv, hnf⟩ := uvLoop_spec P A _ _ _ hloop (uvInit_inv P A hrows)
    refine ⟨uv1, hinv, hnf, ?_⟩
    rcases hcond with ⟨r, hr, hrn⟩ | ⟨c, hc, hcn⟩
    · exact Or.inl ⟨r, List.mem_range.mp hr, hrn⟩
    · exact Or.inr ⟨c, List.mem_range.mp hc, hcn⟩
  · rw [if_neg hcond] at h
    exact absurd h (by simp)

/-- C4 (amended).  `calculate_uv` returns the failure sentinel exactly when
some potential is not derivable by label propagation from `u[0] = 0` over
the basic cells; when it returns non-sentinel vectors, `u[0] = 0`, and
provided the number of basic cells is at most `rows + cols - 1`, the
equation `costs[r][c] = u[r] + v[c]` holds for every basic cell. -/
theorem calculate_uv_correct (P : TP) (A : Alloc) (hrows : 1 ≤ P.rows) :
    (calculate_uv P A = none ↔
      ¬((∀ r < P.rows, Reach P A (Sum.inl r)) ∧ (∀ c < P.cols, Reach P A (Sum.inr c)))) ∧
    (∀ uv : UV, calculate_uv P A = some uv →
      uv.1 0 = some 0 ∧
      (countPos P A ≤ P.rows + P.cols - 1 →
        ∀ r < P.rows, ∀ c < P.cols, isBasic A r c →
          ∃ a b, uv.1 r = some a ∧ uv.2 c = some b ∧ P.costs r c = a + b)) := by
  constructor
  · constructor
    · intro hnone hall
      obtain ⟨hallr, hallc⟩ := hall
      obtain ⟨uv, hinv, hnf, hmiss⟩ := calculate_uv_eq_none P A hrows hnone
      rcases hmiss with ⟨r, hr, hrn⟩ | ⟨c, hc, hcn⟩
      · have := reach_known P A hinv.1 hnf _ (hallr r hr)
        have h2 : (uv.1 r).isSome = true := this
        rw [hrn] at h2
        exact absurd h2 (by simp)
      · have := reach_known P A hinv.1 hnf _ (hallc c hc)
        have h2 : (uv.2 c).isSome = true := this
        rw [hcn] at h2
        exact absurd h2 (by simp)
    · intro hneg
      by_contra hne
      obtain ⟨uv, hsome⟩ := Option.ne_none_iff_exists'.mp hne
      obtain ⟨hinv, hnf, hkr, hkc⟩ := calculate_uv_eq_some P A hrows hsome
      refine hneg ⟨?_, ?_⟩
      · intro r hr
        exact known_reach P A hinv (Sum.inl r) (hkr r hr)
      · intro c hc
        exact known_reach P A hinv (Sum.inr c) (hkc c hc)
  · intro uv hsome
    obtain ⟨hinv, hnf, hkr, hkc⟩ := calculate_uv_eq_some P A hrows hsome
    refine ⟨hinv.1, ?_⟩
    intro hcnt r hr c hc hb
    obtain ⟨h0, L, hlay, hedges, hknown, hlen⟩ := hinv
    have hkcount : kcount P uv = P.rows + P.cols := by
      unfold kcount kcnt
      rw [Finset.filter_true_of_mem fun x hx => hkr x (Finset.mem_range.mp hx),
        Finset.filter_true_of_mem fun x hx => hkc x (Finset.mem_range.mp hx),
        Finset.card_range, Finset.card_range]
    have hnd := layered_nodup hlay
    have hsub : L.toFinset ⊆
        (Finset.range P.rows ×ˢ Finset.range P.cols).filter fun e => isBasic A e.1 e.2 := by
      intro x hx
      obtain ⟨hb1, hb2, hb3, _⟩ := hedges x (List.mem_toFinset.mp hx)
      simp only [Finset.mem_filter, Finset.mem_product, Finset.mem_range]
      exact ⟨⟨hb1, hb2⟩, hb3⟩
    have hcardB : ((Finset.range P.rows ×ˢ Finset.range P.cols).filter
        fun e => isBasic A e.1 e.2).card = countPos P A := by
      unfold countPos
      congr 1
      apply Finset.filter_congr
      intro e _
      exact isBasic_iff_pos A e.1 e.2
    have hcardL : L.toFinset.card = L.length := List.toFinset_card_of_nodup hnd
    have heq : L.toFinset =
        (Finset.range P.rows ×ˢ Finset.range P.cols).filter fun e => isBasic A e.1 e.2 := by
      apply Finset.eq_of_subset_of_card_le hsub
      rw [hcardB, hcardL]
      omega
    have hmem : (r, c) ∈ L.toFinset := by
      rw [heq]
      simp only [Finset.mem_filter, Finset.mem_product, Finset.mem_range]
      exact ⟨⟨hr, hc⟩, hb⟩
    obtain ⟨_, _, _, a, b, ha, hb2, hab⟩ := hedges (r, c) (List.mem_toFinset.mp hmem)
    exact ⟨a, b, ha, hb2, hab⟩

theorem calculate_uv_correct_witness :
    1 ≤ Pex.rows ∧
      ((calculate_uv Pex (nwcm Pex) = none ↔
        ¬((∀ r < Pex.rows, Reach Pex (nwcm Pex) (Sum.inl r)) ∧
          (∀ c < Pex.cols, Reach Pex (nwcm Pex) (Sum.inr c)))) ∧
      (∀ uv : UV, calculate_uv Pex (nwcm Pex) = some uv →
        uv.1 0 = some 0 ∧
        (countPos Pex (nwcm Pex) ≤ Pex.rows + Pex.cols - 1 →
          ∀ r < Pex.rows, ∀ c < Pex.cols, isBasic (nwcm Pex) r c →
            ∃ a b, uv.1 r = some a ∧ uv.2 c = some b ∧ Pex.costs r c = a + b))) :=
  ⟨by decide, calculate_uv_correct Pex (nwcm Pex) (by decide)⟩

/-- A 2-by-2 instance in which every cell is basic: the propagation
resolves all potentials (no sentinel), but the cyclic basic set makes the
equation at the late cell `(1,1)` fail. -/
def P4 : TP := ⟨2, 2, fun r c => if r = 1 ∧ c = 1 then 1 else 0, fun _ => 0, fun _ => 0⟩

def A4 : Alloc := fun r c => if r ≤ 1 ∧ c ≤ 1 then 10 else 0

theorem calculate_uv_counterexample :
    (calculate_uv P4 A4).isSome = true ∧
    ((calculate_uv P4 A4).getD uvInit).1 1 = some 0 ∧
    ((calculate_uv P4 A4).getD uvInit).2 1 = some 0 ∧
    isBasic A4 1 1 ∧ P4.costs 1 1 = 1 ∧ (1 : ℚ) ≠ 0 + 0 := by
  norm_num [calculate_uv, uvLoop, uvPass, uvCell, uvInit, cellsList, isBasic, eps,
    Function.update, List.range_succ, P4, A4]
  simp [Function.update]

/-! ## Closed-loop search (`get_closed_loop`) -/

/-- A DFS frame: current node, path so far, and the direction tag of the
move that produced the node (`true` = 'H', `false` = 'V'; the initial
frame carries 'V'). -/
abbrev Frame := Cell × List Cell × Bool

/-- `get_neighbors(curr, prev_dir)`.  After a horizontal move ('H') come
vertical moves within the same column; otherwise horizontal moves within
the same row, where the target may also be the start node.  Note the
start-node exception exists only in the horizontal branch, exactly as in
the source. -/
def nbrs (P : TP) (A : Alloc) (start cur : Cell) : Bool → List (Cell × Bool)
  | true =>
      (List.range P.rows).filterMap fun r =>
        if r ≠ cur.1 ∧ isBasic A r cur.2 then some ((r, cur.2), false) else none
  | false =>
      (List.range P.cols).filterMap fun c =>
        if c ≠ cur.2 ∧ ((cur.1, c) = start ∨ isBasic A cur.1 c) then some ((cur.1, c), true)
        else none

/-- Process the neighbor list of a popped frame: return the path on a
closing revisit of the start once the path has at least 3 cells, push
unvisited nodes onto the stack. -/
def stepNbrs (start : Cell) (path : List Cell) :
    List (Cell × Bool) → List Frame → List Frame ⊕ List Cell
  | [], st => Sum.inl st
  | (n, d) :: rest, st =>
      if n = start ∧ 3 ≤ path.length then Sum.inr path
      else if n ∈ path then stepNbrs start path rest st
      else stepNbrs start path rest ((n, path ++ [n], d) :: st)

/-- The DFS stack loop, fueled by the number of pops; `none` = fuel
exhausted, `some none` = stack exhausted without a loop, `some (some p)` =
loop found. -/
def dfsGo (P : TP) (A : Alloc) (start : Cell) : ℕ → List Frame → Option (Option (List Cell))
  | 0, _ => none
  | _ + 1, [] => some none
  | f + 1, (cur, path, d) :: st =>
      match stepNbrs start path (nbrs P A start cur d) st with
      | Sum.inr p => some (some p)
      | Sum.inl st2 => dfsGo P A start f st2

/-- `get_closed_loop`. -/
def get_closed_loop (P : TP) (A : Alloc) (start : Cell) (fuel : ℕ) :
    Option (Option (List Cell)) :=
  dfsGo P A start fuel [(start, [start], false)]

/-- The geometric relation of one move: `true` = horizontal (same row,
different column), `false` = vertical (same column, different row). -/
def edgeRel : Bool → Cell → Cell → Prop
  | true, x, y => x.1 = y.1 ∧ x.2 ≠ y.2
  | false, x, y => x.2 = y.2 ∧ x.1 ≠ y.1

/-- Strict horizontal/vertical alternation along a path, the first move
being of kind `b`. -/
def chainDir : Bool → List Cell → Prop
  | _, [] => True
  | _, [_] => True
  | b, x :: y :: l => edgeRel b x y ∧ chainDir (!b) (y :: l)

lemma chainDir_cons_cons {b : Bool} {x y : Cell} {l : List Cell} :
    chainDir b (x :: y :: l) ↔ edgeRel b x y ∧ chainDir (!b) (y :: l) := by
  rw [chainDir]

lemma chainDir_snoc :
    ∀ (l : List Cell) (b : Bool) (x n : Cell),
      chainDir b l → l.getLast? = some x →
      edgeRel (if Even l.length then !b else b) x n →
      chainDir b (l ++ [n]) := by
  intro l
  induction l with
  | nil =>
      intro b x n _ hlast _
      exact absurd hlast (by simp)
  | cons a t ih =>
      intro b x n hch hlast hrel
      cases t with
      | nil =>
          have hx : x = a := by
            simp only [List.getLast?_singleton, Option.some.injEq] at hlast
            exact hlast.symm
          subst hx
          show chainDir b [x, n]
          rw [chainDir_cons_cons]
          refine ⟨?_, trivial⟩
          simpa using hrel
      | cons c t2 =>
          rw [chainDir_cons_cons] at hch
          show chainDir b (a :: ((c :: t2) ++ [n]))
          rw [List.cons_append, chainDir_cons_cons] at *
          refine ⟨hch.1, ?_⟩
          apply ih (!b) x n hch.2
          · rw [List.getLast?_cons_cons] at hlast
            exact hlast
          · have hpar : Even (a :: c :: t2).length ↔ ¬Even (c :: t2).length := by
              simp only [List.length_cons]
              constructor
              · intro h
                rw [Nat.even_add_one] at h
                exact h
              · intro h
                rw [Nat.even_add_one]
                exact h
            by_cases hev : Even (c :: t2).length
            · rw [if_pos hev, Bool.not_not]
              have : ¬Even (a :: c :: t2).length := fun h => (hpar.mp h) hev
              rwa [if_neg this] at hrel
            · rw [if_neg hev]
              have : Even (a :: c :: t2).length := by
                simp only [List.length_cons]
                rw [Nat.even_add_one]
                simpa using hev
              rw [if_pos this] at hrel
              simpa using hrel

lemma mem_nbrs_true {P : TP} {A : Alloc} {start cur : Cell} {n : Cell} {nd : Bool}
    (h : (n, nd) ∈ nbrs P A start cur true) :
    nd = false ∧ n.2 = cur.2 ∧ n.1 ≠ cur.1 ∧ n.1 < P.rows ∧ isBasic A n.1 n.2 := by
  unfold nbrs at h
  rw [List.mem_filterMap] at h
  obtain ⟨r, hr, hf⟩ := h
  by_cases hcond : r ≠ cur.1 ∧ isBasic A r cur.2
  · rw [if_pos hcond] at hf
    simp only [Option.some.injEq, Prod.mk.injEq] at hf
    obtain ⟨hf1, hf2⟩ := hf
    subst hf1
    subst hf2
    exact ⟨rfl, rfl, hcond.1, List.mem_range.mp hr, hcond.2⟩
  · rw [if_neg hcond] at hf
    exact absurd hf (by simp)

lemma mem_nbrs_false {P : TP} {A : Alloc} {start cur : Cell} {n : Cell} {nd : Bool}
    (h : (n, nd) ∈ nbrs P A start cur false) :
    nd = true ∧ n.1 = cur.1 ∧ n.2 ≠ cur.2 ∧ n.2 < P.cols ∧
      (n = start ∨ isBasic A n.1 n.2) := by
  unfold nbrs at h
  rw [List.mem_filterMap] at h
  obtain ⟨c, hc, hf⟩ := h
  by_cases hcond : c ≠ cur.2 ∧ ((cur.1, c) = start ∨ isBasic A cur.1 c)
  · rw [if_pos hcond] at hf
    simp only [Option.some.injEq, Prod.mk.injEq] at hf
    obtain ⟨hf1, hf2⟩ := hf
    subst hf1
    subst hf2
    exact ⟨rfl, rfl, hcond.1, List.mem_range.mp hc, hcond.2⟩
  · rw [if_neg hcond] at hf
    exact absurd hf (by simp)

lemma stepNbrs_inr {start : Cell} {path : List Cell} :
    ∀ (nl : List (Cell × Bool)) (st : List Frame) (p : List Cell),
      stepNbrs start path nl st = Sum.inr p →
      p = path ∧ 3 ≤ path.length ∧ ∃ nd, (start, nd) ∈ nl := by
  intro nl
  induction nl with
  | nil =>
      intro st p h
      exact absurd h (by simp [stepNbrs])
  | cons nd0 rest ih =>
      intro st p h
      obtain ⟨n, d⟩ := nd0
      unfold stepNbrs at h
      by_cases hcl : n = start ∧ 3 ≤ path.length
      · rw [if_pos hcl] at h
        obtain rfl : path = p := by
          cases h
          rfl
        obtain rfl := hcl.1
        exact ⟨rfl, hcl.2, d, List.mem_cons_self _ _⟩
      · rw [if_neg hcl] at h
        by_cases hin : n ∈ path
        · rw [if_pos hin] at h
          obtain ⟨h1, h2, nd2, h3⟩ := ih st p h
          exact ⟨h1, h2, nd2, List.mem_cons_of_mem _ h3⟩
        · rw [if_neg hin] at h
          obtain ⟨h1, h2, nd2, h3⟩ := ih _ p h
          exact ⟨h1, h2, nd2, List.mem_cons_of_mem _ h3⟩

lemma stepNbrs_inl {start : Cell} {path : List Cell} :
    ∀ (nl : List (Cell × Bool)) (st st2 : List Frame),
      stepNbrs start path nl st = Sum.inl st2 →
      ∀ fr ∈ st2, fr ∈ st ∨ ∃ n d, (n, d) ∈ nl ∧ n ∉ path ∧ fr = (n, path ++ [n], d) := by
  intro nl
  induction nl with
  | nil =>
      intro st st2 h fr hfr
      obtain rfl : st = st2 := by
        cases h
        rfl
      exact Or.inl hfr
  | cons nd0 rest ih =>
      intro st st2 h fr hfr
      obtain ⟨n, d⟩ := nd0
      unfold stepNbrs at h
      by_cases hcl : n = start ∧ 3 ≤ path.length
      · rw [if_pos hcl] at h
        exact absurd h (by simp)
      · rw [if_neg hcl] at h
        by_cases hin : n ∈ path
        · rw [if_pos hin] at h
          rcases ih st st2 h fr hfr with h2 | ⟨n2, d2, h3, h4, h5⟩
          · exact Or.inl h2
          · exact Or.inr ⟨n2, d2, List.mem_cons_of_mem _ h3, h4, h5⟩
        · rw [if_neg hin] at h
          rcases ih _ st2 h fr hfr with h2 | ⟨n2, d2, h3, h4, h5⟩
          · rcases List.mem_cons.mp h2 with rfl | h6
            · exact Or.inr ⟨n, d, List.mem_cons_self _ _, hin, rfl⟩
            · exact Or.inl h6
          · exact Or.inr ⟨n2, d2, List.mem_cons_of_mem _ h3, h4, h5⟩

/-- Invariant of every frame on the DFS stack. -/
structure GoodFrame (P : TP) (A : Alloc) (start : Cell) (fr : Frame) : Prop where
  hhead : fr.2.1.head? = some start
  hlast : fr.2.1.getLast? = some fr.1
  hnd : fr.2.1.Nodup
  hch : chainDir true fr.2.1
  hdir : fr.2.2 = true ↔ Even fr.2.1.length
  htail : ∀ e ∈ fr.2.1.tail, e.1 < P.rows ∧ e.2 < P.cols ∧ isBasic A e.1 e.2

/-- What holds of every path returned by `get_closed_loop`. -/
structure GoodPath (P : TP) (A : Alloc) (start : Cell) (p : List Cell) : Prop where
  hhead : p.head? = some start
  hlen : 3 ≤ p.length
  hnd : p.Nodup
  hch : chainDir true p
  htail : ∀ e ∈ p.tail, e.1 < P.rows ∧ e.2 < P.cols ∧ isBasic A e.1 e.2
  hclose : ∃ last, p.getLast? = some last ∧
    ((Even p.length ∧ last.2 = start.2 ∧ last.1 ≠ start.1) ∨
     (¬Even p.length ∧ last.1 = start.1 ∧ last.2 ≠ start.2))

lemma goodFrame_cur_grid {P : TP} {A : Alloc} {start : Cell}
    (hstart : start.1 < P.rows ∧ start.2 < P.cols) {fr : Frame}
    (hfr : GoodFrame P A start fr) : fr.1.1 < P.rows ∧ fr.1.2 < P.cols := by
  obtain ⟨t, hp⟩ : ∃ t, fr.2.1 = start :: t := by
    have hh := hfr.hhead
    cases hl : fr.2.1 with
    | nil =>
        rw [hl] at hh
        exact absurd hh (by simp)
    | cons a t =>
        rw [hl] at hh
        simp only [List.head?_cons, Option.some.injEq] at hh
        rw [hh]
        exact ⟨t, rfl⟩
  have hlast := hfr.hlast
  rw [hp] at hlast
  cases ht : t with
  | nil =>
      rw [ht] at hlast
      simp only [List.getLast?_singleton, Option.some.injEq] at hlast
      rw [← hlast]
      exact hstart
  | cons b t2 =>
      rw [ht, List.getLast?_cons_cons] at hlast
      have hmem : fr.1 ∈ b :: t2 := by
        obtain ⟨hne, hxeq⟩ := List.mem_getLast?_eq_getLast (Option.mem_def.mpr hlast)
        rw [hxeq]
        exact List.getLast_mem hne
      have := hfr.htail fr.1 (by rw [hp, ht]; exact hmem)
      exact ⟨this.1, this.2.1⟩

lemma head?_some_decomp {l : List Cell} {x : Cell} (h : l.head? = some x) :
    ∃ t, l = x :: t := by
  cases l with
  | nil => exact absurd h (by simp)
  | cons a t =>
      simp only [List.head?_cons, Option.some.injEq] at h
      exact ⟨t, by rw [h]⟩

lemma push_good {P : TP} {A : Alloc} {start : Cell}
    (hstart : start.1 < P.rows ∧ start.2 < P.cols)
    {fr : Frame} (hfr : GoodFrame P A start fr)
    {n : Cell} {nd : Bool} (hmem : (n, nd) ∈ nbrs P A start fr.1 fr.2.2)
    (hnotin : n ∉ fr.2.1) :
    GoodFrame P A start (n, fr.2.1 ++ [n], nd) := by
  have hgrid := goodFrame_cur_grid hstart hfr
  obtain ⟨cur, path, d⟩ := fr
  have hhead : path.head? = some start := hfr.hhead
  have hlast : path.getLast? = some cur := hfr.hlast
  have hnd : path.Nodup := hfr.hnd
  have hch : chainDir true path := hfr.hch
  have hdir : d = true ↔ Even path.length := hfr.hdir
  have htail : ∀ e ∈ path.tail, e.1 < P.rows ∧ e.2 < P.cols ∧ isBasic A e.1 e.2 := hfr.htail
  have hmem2 : (n, nd) ∈ nbrs P A start cur d := hmem
  have hgrid2 : cur.1 < P.rows ∧ cur.2 < P.cols := hgrid
  have hnotin2 : n ∉ path := hnotin
  obtain ⟨t, hp⟩ := head?_some_decomp hhead
  have hstartmem : start ∈ path := by
    rw [hp]
    exact List.mem_cons_self _ _
  refine ⟨?_, ?_, ?_, ?_, ?_, ?_⟩
  · show (path ++ [n]).head? = some start
    rw [hp, List.cons_append, List.head?_cons]
  · show (path ++ [n]).getLast? = some n
    rw [List.getLast?_append_cons, List.getLast?_singleton]
  · show (path ++ [n]).Nodup
    rw [List.nodup_append]
    refine ⟨hnd, List.nodup_singleton n, ?_⟩
    intro a ha hb
    rw [List.mem_singleton] at hb
    subst hb
    exact hnotin2 ha
  · show chainDir true (path ++ [n])
    apply chainDir_snoc path true cur n hch hlast
    by_cases hev : Even path.length
    · rw [if_pos hev]
      have hd : d = true := hdir.mpr hev
      rw [hd] at hmem2
      obtain ⟨-, h2, h3, -, -⟩ := mem_nbrs_true hmem2
      show cur.2 = n.2 ∧ cur.1 ≠ n.1
      exact ⟨h2.symm, fun hh => h3 hh.symm⟩
    · rw [if_neg hev]
      have hd : d = false := by
        cases d with
        | true => exact absurd (hdir.mp rfl) hev
        | false => rfl
      rw [hd] at hmem2
      obtain ⟨-, h2, h3, -, -⟩ := mem_nbrs_false hmem2
      show cur.1 = n.1 ∧ cur.2 ≠ n.2
      exact ⟨h2.symm, fun hh => h3 hh.symm⟩
  · show nd = true ↔ Even (path ++ [n]).length
    rw [List.length_append, List.length_singleton]
    cases hd : d with
    | true =>
        rw [hd] at hmem2
        obtain ⟨hnd2, -, -, -, -⟩ := mem_nbrs_true hmem2
        subst hnd2
        have hev : Even path.length := hdir.mp hd
        constructor
        · intro hh
          exact absurd hh (by simp)
        · intro hh
          rw [Nat.even_add_one] at hh
          exact absurd hev hh
    | false =>
        rw [hd] at hmem2
        obtain ⟨hnd2, -, -, -, -⟩ := mem_nbrs_false hmem2
        subst hnd2
        have hev : ¬Even path.length := by
          intro hh
          have := hdir.mpr hh
          rw [hd] at this
          exact absurd this (by simp)
        constructor
        · intro _
          rw [Nat.even_add_one]
          exact hev
        · intro _
          rfl
  · show ∀ e ∈ (path ++ [n]).tail, e.1 < P.rows ∧ e.2 < P.cols ∧ isBasic A e.1 e.2
    rw [hp, List.cons_append, List.tail_cons]
    intro e he
    rcases List.mem_append.mp he with he2 | he2
    · apply htail
      rw [hp, List.tail_cons]
      exact he2
    · rw [List.mem_singleton] at he2
      subst he2
      cases hd : d with
      | true =>
          rw [hd] at hmem2
          obtain ⟨-, h2, -, h4, h5⟩ := mem_nbrs_true hmem2
          exact ⟨h4, h2 ▸ hgrid2.2, h5⟩
      | false =>
          rw [hd] at hmem2
          obtain ⟨-, h2, -, h4, h5⟩ := mem_nbrs_false hmem2
          have hne : e ≠ start := by
            intro hh
            rw [hh] at hnotin2
            exact hnotin2 hstartmem
          rcases h5 with h5 | h5
          · exact absurd h5 hne
          · exact ⟨h2 ▸ hgrid2.1, h4, h5⟩

lemma dfsGo_sound {P : TP} {A : Alloc} {start : Cell}
    (hstart : start.1 < P.rows ∧ start.2 < P.cols) :
    ∀ (f : ℕ) (st : List Frame) (p : List Cell),
      dfsGo P A start f st = some (some p) →
      (∀ fr ∈ st, GoodFrame P A start fr) → GoodPath P A start p := by
  intro f
  induction f with
  | zero =>
      intro st p h
      exact absurd h (by simp [dfsGo])
  | succ f ih =>
      intro st p h hgood
      cases st with
      | nil => exact absurd h (by simp [dfsGo])
      | cons fr st2 =>
          obtain ⟨cur, path, d⟩ := fr
          have hfr := hgood _ (List.mem_cons_self _ _)
          unfold dfsGo at h
          rcases hstep : stepNbrs start path (nbrs P A start cur d) st2 with st3 | p0
          · rw [hstep] at h
            apply ih st3 p h
            intro fr2 hfr2
            rcases stepNbrs_inl _ _ _ hstep fr2 hfr2 with h2 | ⟨n, nd, h3, h4, h5⟩
            · exact hgood fr2 (List.mem_cons_of_mem _ h2)
            · subst h5
              exact push_good hstart hfr h3 h4
          · rw [hstep] at h
            simp only [Option.some.injEq] at h
            subst h
            obtain ⟨rfl, hlen, nd, hmemn⟩ := stepNbrs_inr _ _ _ hstep
            have hdir := hfr.hdir
            refine ⟨hfr.hhead, hlen, hfr.hnd, hfr.hch, hfr.htail, cur, hfr.hlast, ?_⟩
            cases hd : d with
            | true =>
                rw [hd] at hmemn
                obtain ⟨-, h2, h3, -, -⟩ := mem_nbrs_true hmemn
                exact Or.inl ⟨hdir.mp hd, h2.symm, fun hh => h3 hh.symm⟩
            | false =>
                rw [hd] at hmemn
                obtain ⟨-, h2, h3, -, -⟩ := mem_nbrs_false hmemn
                refine Or.inr ⟨?_, h2.symm, fun hh => h3 hh.symm⟩
                intro hev
                have := hdir.mpr hev
                rw [hd] at this
                exact absurd this (by simp)

/-- Every path returned by `get_closed_loop` starts at the entering cell,
has at least 3 pairwise-distinct cells, alternates strictly starting with
a horizontal move, passes through basic in-grid cells, and closes back to
the start consistently with its parity. -/
lemma get_closed_loop_sound {P : TP} {A : Alloc} {start : Cell}
    (hstart : start.1 < P.rows ∧ start.2 < P.cols) {fuel : ℕ} {p : List Cell}
    (h : get_closed_loop P A start fuel = some (some p)) : GoodPath P A start p := by
  apply dfsGo_sound hstart fuel _ p h
  intro fr hfr
  rw [List.mem_singleton] at hfr
  subst hfr
  refine ⟨rfl, rfl, List.nodup_singleton _, trivial, ?_, ?_⟩
  · show false = true ↔ Even 1
    constructor
    · intro hh
      exact absurd hh (by simp)
    · intro hh
      exact absurd hh (by simp [Nat.even_iff])
  · intro e he
    exact absurd he (List.not_mem_nil e)

/-! ## Reallocation along a loop -/

/-- Split a list into its even-position and odd-position elements
(receiving and donating cells of a loop). -/
def evenOdd : List Cell → List Cell × List Cell
  | [] => ([], [])
  | x :: rest => ((evenOdd rest).2.cons x, (evenOdd rest).1)

/-- `theta = min(minus_cells_values)`: the minimum allocation among the
donating (odd-position) cells. -/
def minTheta (A : Alloc) (p : List Cell) : ℚ :=
  ((evenOdd p).2.map fun x => A x.1 x.2).min?.getD 0

/-- The reallocation loop of `solve`: add `theta` at even positions,
subtract it at odd positions (`b = true` means the current position is
even). -/
def reallocate (th : ℚ) : Bool → Alloc → List Cell → Alloc
  | _, A, [] => A
  | b, A, e :: rest => reallocate th (!b) (bump A e.1 e.2 (if b then th else -th)) rest

lemma qmin?_mem {l : List ℚ} {a : ℚ} (h : l.min? = some a) : a ∈ l :=
  List.min?_mem (fun a b => min_choice a b) h

lemma qmin?_le {l : List ℚ} {a b : ℚ} (h : l.min? = some a) (hb : b ∈ l) : a ≤ b := by
  haveI : Std.Antisymm fun x1 x2 : ℚ => x1 ≤ x2 := ⟨fun h1 h2 => le_antisymm h1 h2⟩
  have := (List.min?_eq_some_iff (fun a => le_refl a) (fun a b => min_choice a b)
    (fun a b c => le_min_iff)).mp h
  exact this.2 b hb

lemma bump_other (A : Alloc) (r c : ℕ) (q : ℚ) {i j : ℕ} (h : ¬(i = r ∧ j = c)) :
    bump A r c q i j = A i j := setA_other A r c _ h

lemma bump_same (A : Alloc) (r c : ℕ) (q : ℚ) : bump A r c q r c = A r c + q :=
  setA_same A r c _

lemma reallocate_not_mem (th : ℚ) {y : Cell} :
    ∀ (p : List Cell) (b : Bool) (A : Alloc), y ∉ p →
      reallocate th b A p y.1 y.2 = A y.1 y.2 := by
  intro p
  induction p with
  | nil => intro b A _; rfl
  | cons e rest ih =>
      intro b A hy
      show reallocate th (!b) _ rest y.1 y.2 = _
      rw [ih (!b) _ fun hh => hy (List.mem_cons_of_mem _ hh)]
      apply bump_other
      rintro ⟨h1, h2⟩
      exact hy (by
        have : y = e := Prod.ext h1 h2
        rw [this]
        exact List.mem_cons_self _ _)

/-- The value of a reallocated cell: the cell at position `|l1|` receives
`+theta` or `-theta` according to the alternating sign. -/
lemma reallocate_value (th : ℚ) {y : Cell} :
    ∀ (l1 l2 : List Cell) (b : Bool) (A : Alloc), y ∉ l1 → y ∉ l2 →
      reallocate th b A (l1 ++ y :: l2) y.1 y.2 =
        A y.1 y.2 + (if (if Even l1.length then b else !b) then th else -th) := by
  intro l1
  induction l1 with
  | nil =>
      intro l2 b A _ hy2
      show reallocate th (!b) _ l2 y.1 y.2 = _
      rw [reallocate_not_mem th l2 (!b) _ hy2, bump_same]
      simp
  | cons a l1 ih =>
      intro l2 b A hy1 hy2
      show reallocate th (!b) _ (l1 ++ y :: l2) y.1 y.2 = _
      rw [ih l2 (!b) _ (fun hh => hy1 (List.mem_cons_of_mem _ hh)) hy2]
      have hne : ¬(y.1 = a.1 ∧ y.2 = a.2) := by
        rintro ⟨h1, h2⟩
        exact hy1 (by
          have : y = a := Prod.ext h1 h2
          rw [this]
          exact List.mem_cons_self _ _)
      rw [bump_other _ _ _ _ hne]
      congr 1
      have hpar : Even (a :: l1).length ↔ ¬Even l1.length := by
        simp only [List.length_cons, Nat.even_add_one]
      by_cases hev : Even l1.length
      · rw [if_pos hev, if_neg (fun hh => (hpar.mp hh) hev)]
      · rw [if_neg hev, if_pos (hpar.mpr hev), Bool.not_not]

/-- The even- and odd-position sublists are sublists of the original. -/
lemma evenOdd_subset : ∀ (p : List Cell),
    (∀ x ∈ (evenOdd p).1, x ∈ p) ∧ (∀ x ∈ (evenOdd p).2, x ∈ p) := by
  intro p
  induction p with
  | nil => exact ⟨fun x hx => absurd hx (List.not_mem_nil x), fun x hx => absurd hx (List.not_mem_nil x)⟩
  | cons e rest ih =>
      constructor
      · intro x hx
        show x ∈ e :: rest
        rcases List.mem_cons.mp hx with rfl | hx2
        · exact List.mem_cons_self _ _
        · exact List.mem_cons_of_mem _ (ih.2 x hx2)
      · intro x hx
        exact List.mem_cons_of_mem _ (ih.1 x hx)

/-- Odd-position cells lie in the tail. -/
lemma evenOdd_snd_tail : ∀ (p : List Cell), ∀ x ∈ (evenOdd p).2, x ∈ p.tail := by
  intro p
  cases p with
  | nil => intro x hx; exact absurd hx (List.not_mem_nil x)
  | cons e rest =>
      intro x hx
      exact (evenOdd_subset rest).1 x hx

/-- Position parity determines membership in the even/odd split. -/
lemma evenOdd_position : ∀ (l1 : List Cell) (y : Cell) (l2 : List Cell),
    (Even l1.length → y ∈ (evenOdd (l1 ++ y :: l2)).1) ∧
      (¬Even l1.length → y ∈ (evenOdd (l1 ++ y :: l2)).2) := by
  intro l1
  induction l1 with
  | nil =>
      intro y l2
      refine ⟨fun _ => ?_, fun h => absurd (by simp : Even ([] : List Cell).length) h⟩
      show y ∈ y :: (evenOdd l2).2
      exact List.mem_cons_self _ _
  | cons a l1 ih =>
      intro y l2
      constructor
      · intro hev
        have hodd : ¬Even l1.length := by
          simp only [List.length_cons, Nat.even_add_one] at hev
          exact hev
        show y ∈ (evenOdd (l1 ++ y :: l2)).2.cons a
        exact List.mem_cons_of_mem _ ((ih y l2).2 hodd)
      · intro hodd
        have hev : Even l1.length := by
          simp only [List.length_cons, Nat.even_add_one] at hodd
          simpa using hodd
        show y ∈ (evenOdd (l1 ++ y :: l2)).1
        exact (ih y l2).1 hev

/-- C5 (amended).  The first move out of the entering (start) cell is
horizontal (to another cell in the same row); subsequent moves strictly
alternate vertical/horizontal; a revisit of the start node is accepted as
a closing move only once the current path contains at least 3 cells. -/
theorem get_closed_loop_structure (P : TP) (A : Alloc) (start : Cell) (fuel : ℕ)
    (p : List Cell) (hstart : start.1 < P.rows ∧ start.2 < P.cols)
    (h : get_closed_loop P A start fuel = some (some p)) :
    3 ≤ p.length ∧
    (∃ b l, p = start :: b :: l ∧ start.1 = b.1 ∧ start.2 ≠ b.2) ∧
    chainDir true p ∧ p.Nodup := by
  have hg := get_closed_loop_sound hstart h
  obtain ⟨t, hp⟩ := head?_some_decomp hg.hhead
  cases t with
  | nil =>
      have hlen := hg.hlen
      rw [hp] at hlen
      simp at hlen
  | cons b l =>
      refine ⟨hg.hlen, ⟨b, l, hp, ?_, ?_⟩, hg.hch, hg.hnd⟩
      · have hch := hg.hch
        rw [hp, chainDir_cons_cons] at hch
        exact hch.1.1
      · have hch := hg.hch
        rw [hp, chainDir_cons_cons] at hch
        exact hch.1.2

/-- The instance exhibiting a returned loop: a 2-by-3 grid whose basic
cells sit in columns 1 and 2 of both rows, entering at `(0,0)`. -/
def P5 : TP := ⟨2, 3, fun _ _ => 0, fun _ => 0, fun _ => 0⟩

def A5 : Alloc := fun r c => if r ≤ 1 ∧ (c = 1 ∨ c = 2) then 5 else 0

theorem get_closed_loop_counterexample :
    get_closed_loop P5 A5 (0, 0) 9 = some (some [(0, 0), (0, 2), (1, 2), (1, 1), (0, 1)]) ∧
    ((0, 0) : Cell).1 = ((0, 2) : Cell).1 ∧ ((0, 0) : Cell).2 ≠ ((0, 2) : Cell).2 := by
  refine ⟨?_, rfl, by norm_num⟩
  norm_num [get_closed_loop, dfsGo, stepNbrs, nbrs, isBasic, eps, List.range_succ, P5, A5]

theorem get_closed_loop_structure_witness :
    (((0, 0) : Cell).1 < P5.rows ∧ ((0, 0) : Cell).2 < P5.cols) ∧
    (3 ≤ ([(0, 0), (0, 2), (1, 2), (1, 1), (0, 1)] : List Cell).length ∧
     (∃ b l, ([(0, 0), (0, 2), (1, 2), (1, 1), (0, 1)] : List Cell) =
        ((0, 0) : Cell) :: b :: l ∧ ((0, 0) : Cell).1 = b.1 ∧ ((0, 0) : Cell).2 ≠ b.2) ∧
     chainDir true [(0, 0), (0, 2), (1, 2), (1, 1), (0, 1)] ∧
     ([(0, 0), (0, 2), (1, 2), (1, 1), (0, 1)] : List Cell).Nodup) :=
  ⟨⟨by decide, by decide⟩,
    get_closed_loop_structure P5 A5 (0, 0) 9 _ ⟨by decide, by decide⟩
      (by norm_num [get_closed_loop, dfsGo, stepNbrs, nbrs, isBasic, eps,
        List.range_succ, P5, A5])⟩

/-- C2 evidence: a concrete run in which `get_closed_loop` returns a
5-cell path (loops can only close through the horizontal branch, hence
with odd length) whose reallocation at `theta = 5 > 0` changes the sum of
row 0 from 10 to 15. -/
theorem reallocation_breaks_row_sum :
    get_closed_loop P5 A5 (0, 0) 9 = some (some [(0, 0), (0, 2), (1, 2), (1, 1), (0, 1)]) ∧
    minTheta A5 [(0, 0), (0, 2), (1, 2), (1, 1), (0, 1)] = 5 ∧
    rowSum P5 A5 0 = 10 ∧
    rowSum P5 (reallocate (minTheta A5 [(0, 0), (0, 2), (1, 2), (1, 1), (0, 1)]) true A5
      [(0, 0), (0, 2), (1, 2), (1, 1), (0, 1)]) 0 = 15 := by
  refine ⟨?_, ?_, ?_, ?_⟩
  · norm_num [get_closed_loop, dfsGo, stepNbrs, nbrs, isBasic, eps, List.range_succ, P5, A5]
  · norm_num [minTheta, evenOdd, A5, List.min?]
  · norm_num [rowSum, P5, A5, Finset.sum_range_succ]
  · norm_num [minTheta, evenOdd, A5, List.min?, rowSum, P5, reallocate, bump, setA,
      Finset.sum_range_succ]

/-! ## Entering-cell selection and the `solve` loop -/

inductive Style
  | normal | header | bold | success | error | highlight
deriving DecidableEq

/-- The solver log, modelled structurally: one constructor per `self.log`
call site, carrying the data interpolated into the message. -/
inductive LogEntry
  | initNWCM
  | initialCost (q : ℚ)
  | iterHeader (k : ℕ)
  | graphDisconnected
  | optimalMsg
  | negOpp (d : ℚ) (e : Cell)
  | loopNotFound
  | shifting (q : ℚ)
deriving DecidableEq

/-- The style tag passed to `self.log` for each message. -/
def style : LogEntry → Style
  | .initNWCM => .header
  | .initialCost _ => .bold
  | .iterHeader _ => .header
  | .graphDisconnected => .error
  | .optimalMsg => .success
  | .negOpp _ _ => .highlight
  | .loopNotFound => .error
  | .shifting _ => .normal

/-- The opportunity cost `d_val = costs[r][c] - (u[r] + v[c])`. -/
def dval (P : TP) (uv : UV) (e : Cell) : ℚ :=
  P.costs e.1 e.2 - ((uv.1 e.1).getD 0 + (uv.2 e.2).getD 0)

/-- The body of the entering-cell scan. -/
def scanF (P : TP) (A : Alloc) (uv : UV) (st : ℚ × Option Cell) (e : Cell) :
    ℚ × Option Cell :=
  if A e.1 e.2 = 0 then
    if dval P uv e < st.1 then (dval P uv e, some e) else st
  else st

/-- The row-major scan for the most negative opportunity cost, starting
from `min_d = 0`, `entering_cell = None`. -/
def scanEntering (P : TP) (A : Alloc) (uv : UV) : ℚ × Option Cell :=
  (cellsList P).foldl (scanF P A uv) (0, none)

inductive StepRes
  | uvErr (A1 : Alloc)
  | opt (A1 : Alloc) (uv : UV)
  | noEnt (A1 : Alloc)
  | fuelOut (A1 : Alloc)
  | loopErr (A1 : Alloc) (d : ℚ) (e : Cell)
  | next (A2 : Alloc) (d : ℚ) (e : Cell) (p : List Cell) (th : ℚ)

/-- One iteration of the `while True` loop of `solve` (lines 34-76):
degeneracy repair, duals, entering-cell selection, loop search,
reallocation.  `noEnt` models the source crashing on `entering_cell is
None` (provably unreachable) and `fuelOut` the DFS running out of model
fuel. -/
def modiStep (P : TP) (dfsF : ℕ) (A : Alloc) : StepRes :=
  match calculate_uv P (fix_degeneracy P A) with
  | none => .uvErr (fix_degeneracy P A)
  | some uv =>
      if -tol ≤ (scanEntering P (fix_degeneracy P A) uv).1 then
        .opt (fix_degeneracy P A) uv
      else
        match (scanEntering P (fix_degeneracy P A) uv).2 with
        | none => .noEnt (fix_degeneracy P A)
        | some e =>
            match get_closed_loop P (fix_degeneracy P A) e dfsF with
            | none => .fuelOut (fix_degeneracy P A)
            | some none => .loopErr (fix_degeneracy P A) (scanEntering P (fix_degeneracy P A) uv).1 e
            | some (some p) =>
                .next (reallocate (minTheta (fix_degeneracy P A) p) true (fix_degeneracy P A) p)
                  (scanEntering P (fix_degeneracy P A) uv).1 e p
                  (minTheta (fix_degeneracy P A) p)

inductive Outcome
  | optimal (uv : UV)
  | uvError
  | loopError
  | crash
  | fuel

/-- The value of `solve`: final allocation, rounded total cost, log, and
how the loop ended. -/
structure SolveRes where
  alloc : Alloc
  cost : ℤ
  logs : List LogEntry
  outcome : Outcome

def solveGo (P : TP) (dfsF : ℕ) : ℕ → Alloc → ℕ → List LogEntry → SolveRes
  | 0, A, _, logs => ⟨A, round (calculate_total_cost P A), logs, .fuel⟩
  | n + 1, A, k, logs =>
      match modiStep P dfsF A with
      | .uvErr A1 =>
          ⟨A1, round (calculate_total_cost P A1),
            logs ++ [.iterHeader k, .graphDisconnected], .uvError⟩
      | .opt A1 uv =>
          ⟨A1, round (calculate_total_cost P A1),
            logs ++ [.iterHeader k, .optimalMsg], .optimal uv⟩
      | .noEnt A1 =>
          ⟨A1, round (calculate_total_cost P A1), logs ++ [.iterHeader k], .crash⟩
      | .fuelOut A1 =>
          ⟨A1, round (calculate_total_cost P A1), logs ++ [.iterHeader k], .fuel⟩
      | .loopErr A1 d e =>
          ⟨A1, round (calculate_total_cost P A1),
            logs ++ [.iterHeader k, .negOpp d e, .loopNotFound], .loopError⟩
      | .next A2 d e p th =>
          solveGo P dfsF n A2 (k + 1) (logs ++ [.iterHeader k, .negOpp d e, .shifting th])

/-- `solve`: NWCM, the two initial log entries, then the optimization
loop. -/
def solve (P : TP) (dfsF iterF : ℕ) : SolveRes :=
  solveGo P dfsF iterF (nwcm P) 1
    [.initNWCM, .initialCost (calculate_total_cost P (nwcm P))]

/-- Complete analysis of the entering-cell fold: the final `min_d` is a
lower bound for the opportunity cost of every zero cell scanned, and when
an entering cell is selected it attains `min_d`, is negative, and every
earlier zero cell in scan order is strictly worse (hence ties go to the
first cell in row-major order). -/
lemma scan_fold (P : TP) (A : Alloc) (uv : UV) :
    ∀ (l : List Cell) (st : ℚ × Option Cell),
      (l.foldl (scanF P A uv) st).1 ≤ st.1 ∧
      (∀ x ∈ l, A x.1 x.2 = 0 → (l.foldl (scanF P A uv) st).1 ≤ dval P uv x) ∧
      (l.foldl (scanF P A uv) st = st ∨
        ∃ e l1 l2, l = l1 ++ e :: l2 ∧ A e.1 e.2 = 0 ∧
          (l.foldl (scanF P A uv) st).1 = dval P uv e ∧
          (l.foldl (scanF P A uv) st).2 = some e ∧
          (l.foldl (scanF P A uv) st).1 < st.1 ∧
          ∀ x ∈ l1, A x.1 x.2 = 0 → (l.foldl (scanF P A uv) st).1 < dval P uv x) := by
  intro l
  induction l with
  | nil =>
      intro st
      refine ⟨le_refl _, ?_, Or.inl rfl⟩
      intro x hx
      exact absurd hx (List.not_mem_nil x)
  | cons e t ih =>
      intro st
      rw [List.foldl_cons]
      by_cases hz : A e.1 e.2 = 0
      · by_cases hlt : dval P uv e < st.1
        · have hstep : scanF P A uv st e = (dval P uv e, some e) := by
            unfold scanF
            rw [if_pos hz, if_pos hlt]
          rw [hstep]
          obtain ⟨ih1, ih2, ih3⟩ := ih (dval P uv e, some e)
          refine ⟨le_trans ih1 (le_of_lt hlt), ?_, ?_⟩
          · intro x hx hx0
            rcases List.mem_cons.mp hx with rfl | hx2
            · exact ih1
            · exact ih2 x hx2 hx0
          · rcases ih3 with heq | ⟨e2, l1, l2, hsplit, h0, hval, hsome, hlt2, hall⟩
            · right
              refine ⟨e, [], t, rfl, hz, ?_, ?_, ?_, ?_⟩
              · rw [heq]
              · rw [heq]
              · rw [heq]; exact hlt
              · intro x hx
                exact absurd hx (List.not_mem_nil x)
            · right
              refine ⟨e2, e :: l1, l2, by rw [hsplit]; rfl, h0, hval, hsome, lt_trans hlt2 hlt, ?_⟩
              intro x hx hx0
              rcases List.mem_cons.mp hx with rfl | hx2
              · exact lt_of_lt_of_le hlt2 (le_refl _)
              · exact hall x hx2 hx0
        · have hstep : scanF P A uv st e = st := by
            unfold scanF
            rw [if_pos hz, if_neg hlt]
          rw [hstep]
          obtain ⟨ih1, ih2, ih3⟩ := ih st
          push_neg at hlt
          refine ⟨ih1, ?_, ?_⟩
          · intro x hx hx0
            rcases List.mem_cons.mp hx with rfl | hx2
            · exact le_trans ih1 hlt
            · exact ih2 x hx2 hx0
          · rcases ih3 with heq | ⟨e2, l1, l2, hsplit, h0, hval, hsome, hlt2, hall⟩
            · exact Or.inl heq
            · right
              refine ⟨e2, e :: l1, l2, by rw [hsplit]; rfl, h0, hval, hsome, hlt2, ?_⟩
              intro x hx hx0
              rcases List.mem_cons.mp hx with rfl | hx2
              · exact lt_of_lt_of_le hlt2 hlt
              · exact hall x hx2 hx0
      · have hstep : scanF P A uv st e = st := by
          unfold scanF
          rw [if_neg hz]
        rw [hstep]
        obtain ⟨ih1, ih2, ih3⟩ := ih st
        refine ⟨ih1, ?_, ?_⟩
        · intro x hx hx0
          rcases List.mem_cons.mp hx with rfl | hx2
          · exact absurd hx0 hz
          · exact ih2 x hx2 hx0
        · rcases ih3 with heq | ⟨e2, l1, l2, hsplit, h0, hval, hsome, hlt2, hall⟩
          · exact Or.inl heq
          · right
            refine ⟨e2, e :: l1, l2, by rw [hsplit]; rfl, h0, hval, hsome, hlt2, ?_⟩
            intro x hx hx0
            rcases List.mem_cons.mp hx with rfl | hx2
            · exact absurd hx0 hz
            · exact hall x hx2 hx0

lemma modiStep_uvErr_spec {P : TP} {f : ℕ} {A A1 : Alloc}
    (h : modiStep P f A = .uvErr A1) :
    A1 = fix_degeneracy P A ∧ calculate_uv P (fix_degeneracy P A) = none := by
  unfold modiStep at h
  rcases hc : calculate_uv P (fix_degeneracy P A) with _ | uv2 <;> rw [hc] at h
  · cases h
    exact ⟨rfl, rfl⟩
  · dsimp only at h
    by_cases hopt : -tol ≤ (scanEntering P (fix_degeneracy P A) uv2).1
    · rw [if_pos hopt] at h
      exact StepRes.noConfusion h
    · rw [if_neg hopt] at h
      rcases hsc : (scanEntering P (fix_degeneracy P A) uv2).2 with _ | e <;> rw [hsc] at h
      · exact StepRes.noConfusion h
      · dsimp only at h
        rcases hloop : get_closed_loop P (fix_degeneracy P A) e f with _ | _ | p <;>
          rw [hloop] at h
        · exact StepRes.noConfusion h
        · exact StepRes.noConfusion h
        · exact StepRes.noConfusion h

lemma modiStep_opt_spec {P : TP} {f : ℕ} {A A1 : Alloc} {uv : UV}
    (h : modiStep P f A = .opt A1 uv) :
    A1 = fix_degeneracy P A ∧ calculate_uv P (fix_degeneracy P A) = some uv ∧
      -tol ≤ (scanEntering P (fix_degeneracy P A) uv).1 := by
  unfold modiStep at h
  rcases hc : calculate_uv P (fix_degeneracy P A) with _ | uv2 <;> rw [hc] at h
  · exact StepRes.noConfusion h
  · dsimp only at h
    by_cases hopt : -tol ≤ (scanEntering P (fix_degeneracy P A) uv2).1
    · rw [if_pos hopt] at h
      obtain ⟨h1, h2⟩ := StepRes.opt.inj h
      subst h1
      subst h2
      exact ⟨rfl, rfl, hopt⟩
    · rw [if_neg hopt] at h
      rcases hsc : (scanEntering P (fix_degeneracy P A) uv2).2 with _ | e <;> rw [hsc] at h
      · exact StepRes.noConfusion h
      · dsimp only at h
        rcases hloop : get_closed_loop P (fix_degeneracy P A) e f with _ | _ | p <;>
          rw [hloop] at h
        · exact StepRes.noConfusion h
        · exact StepRes.noConfusion h
        · exact StepRes.noConfusion h

lemma modiStep_loopErr_spec {P : TP} {f : ℕ} {A A1 : Alloc} {d : ℚ} {e : Cell}
    (h : modiStep P f A = .loopErr A1 d e) :
    A1 = fix_degeneracy P A ∧
      ∃ uv, calculate_uv P (fix_degeneracy P A) = some uv ∧
        ¬(-tol ≤ (scanEntering P (fix_degeneracy P A) uv).1) ∧
        (scanEntering P (fix_degeneracy P A) uv).1 = d ∧
        (scanEntering P (fix_degeneracy P A) uv).2 = some e ∧
        get_closed_loop P (fix_degeneracy P A) e f = some none := by
  unfold modiStep at h
  rcases hc : calculate_uv P (fix_degeneracy P A) with _ | uv2 <;> rw [hc] at h
  · exact StepRes.noConfusion h
  · dsimp only at h
    by_cases hopt : -tol ≤ (scanEntering P (fix_degeneracy P A) uv2).1
    · rw [if_pos hopt] at h
      exact StepRes.noConfusion h
    · rw [if_neg hopt] at h
      rcases hsc : (scanEntering P (fix_degeneracy P A) uv2).2 with _ | e2 <;> rw [hsc] at h
      · exact StepRes.noConfusion h
      · dsimp only at h
        rcases hloop : get_closed_loop P (fix_degeneracy P A) e2 f with _ | _ | p <;>
          rw [hloop] at h
        · exact StepRes.noConfusion h
        · obtain ⟨h1, h2, h3⟩ := StepRes.loopErr.inj h
          subst h1
          subst h3
          exact ⟨rfl, uv2, rfl, hopt, h2, hsc, hloop⟩
        · exact StepRes.noConfusion h

lemma modiStep_next_spec {P : TP} {f : ℕ} {A A2 : Alloc} {d : ℚ} {e : Cell}
    {p : List Cell} {th : ℚ} (h : modiStep P f A = .next A2 d e p th) :
    ∃ uv, calculate_uv P (fix_degeneracy P A) = some uv ∧
      ¬(-tol ≤ (scanEntering P (fix_degeneracy P A) uv).1) ∧
      (scanEntering P (fix_degeneracy P A) uv).1 = d ∧
      (scanEntering P (fix_degeneracy P A) uv).2 = some e ∧
      get_closed_loop P (fix_degeneracy P A) e f = some (some p) ∧
      th = minTheta (fix_degeneracy P A) p ∧
      A2 = reallocate th true (fix_degeneracy P A) p := by
  unfold modiStep at h
  rcases hc : calculate_uv P (fix_degeneracy P A) with _ | uv2 <;> rw [hc] at h
  · exact StepRes.noConfusion h
  · dsimp only at h
    by_cases hopt : -tol ≤ (scanEntering P (fix_degeneracy P A) uv2).1
    · rw [if_pos hopt] at h
      exact StepRes.noConfusion h
    · rw [if_neg hopt] at h
      rcases hsc : (scanEntering P (fix_degeneracy P A) uv2).2 with _ | e2 <;> rw [hsc] at h
      · exact StepRes.noConfusion h
      · dsimp only at h
        rcases hloop : get_closed_loop P (fix_degeneracy P A) e2 f with _ | _ | p2 <;>
          rw [hloop] at h
        · exact StepRes.noConfusion h
        · exact StepRes.noConfusion h
        · obtain ⟨h1, h2, h3, h4, h5⟩ := StepRes.next.inj h
          subst h2
          subst h3
          subst h4
          subst h5
          exact ⟨uv2, rfl, hopt, rfl, hsc, hloop, rfl, h1.symm⟩

/-- `countPos` as a row-major list scan, for concrete evaluation. -/
lemma countPos_eq_length (P : TP) (A : Alloc) :
    countPos P A = ((cellsList P).filter fun e => decide (0 < A e.1 e.2)).length := by
  have h1 : (cellsList P).toFinset = Finset.range P.rows ×ˢ Finset.range P.cols := by
    ext e
    simp [mem_cellsList, Finset.mem_product]
  have h2 : ((cellsList P).filter fun e => decide (0 < A e.1 e.2)).toFinset =
      (Finset.range P.rows ×ˢ Finset.range P.cols).filter fun e => 0 < A e.1 e.2 := by
    rw [List.toFinset_filter, h1]
    apply Finset.filter_congr
    intro e _
    simp
  unfold countPos
  rw [← h2, List.toFinset_card_of_nodup ((cellsList_nodup P).filter _)]

/-- C9: when either fatal condition occurs during `solve` — `calculate_uv`
returns the failure sentinel, or `get_closed_loop` returns no path — the
loop terminates on that iteration regardless of how much fuel remains (no
further iteration), the corresponding error message is the final entry of
the log, and a full `SolveRes` record (allocation, rounded total cost,
log, outcome) is still returned rather than an exception being thrown. -/
theorem solve_fatal_halt (P : TP) (dfsF n k : ℕ) (A : Alloc) (logs : List LogEntry) :
    (∀ A1, modiStep P dfsF A = .uvErr A1 →
      solveGo P dfsF (n + 1) A k logs =
        ⟨A1, round (calculate_total_cost P A1),
          logs ++ [.iterHeader k, .graphDisconnected], .uvError⟩ ∧
      (solveGo P dfsF (n + 1) A k logs).logs.getLast? = some .graphDisconnected ∧
      style .graphDisconnected = .error ∧
      solveGo P dfsF (n + 1) A k logs = solveGo P dfsF 1 A k logs) ∧
    (∀ A1 d e, modiStep P dfsF A = .loopErr A1 d e →
      solveGo P dfsF (n + 1) A k logs =
        ⟨A1, round (calculate_total_cost P A1),
          logs ++ [.iterHeader k, .negOpp d e, .loopNotFound], .loopError⟩ ∧
      (solveGo P dfsF (n + 1) A k logs).logs.getLast? = some .loopNotFound ∧
      style .loopNotFound = .error ∧
      solveGo P dfsF (n + 1) A k logs = solveGo P dfsF 1 A k logs) := by
  constructor
  · intro A1 h
    have e1 : solveGo P dfsF (n + 1) A k logs =
        ⟨A1, round (calculate_total_cost P A1),
          logs ++ [.iterHeader k, .graphDisconnected], .uvError⟩ := by
      unfold solveGo
      rw [h]
    have e2 : solveGo P dfsF 1 A k logs =
        ⟨A1, round (calculate_total_cost P A1),
          logs ++ [.iterHeader k, .graphDisconnected], .uvError⟩ := by
      unfold solveGo
      rw [h]
    refine ⟨e1, ?_, rfl, by rw [e1, e2]⟩
    rw [e1]
    have hsplit : logs ++ [LogEntry.iterHeader k, LogEntry.graphDisconnected] =
        (logs ++ [LogEntry.iterHeader k]) ++ [LogEntry.graphDisconnected] := by
      simp
    dsimp only
    rw [hsplit, List.getLast?_concat]
  · intro A1 d e h
    have e1 : solveGo P dfsF (n + 1) A k logs =
        ⟨A1, round (calculate_total_cost P A1),
          logs ++ [.iterHeader k, .negOpp d e, .loopNotFound], .loopError⟩ := by
      unfold solveGo
      rw [h]
    have e2 : solveGo P dfsF 1 A k logs =
        ⟨A1, round (calculate_total_cost P A1),
          logs ++ [.iterHeader k, .negOpp d e, .loopNotFound], .loopError⟩ := by
      unfold solveGo
      rw [h]
    refine ⟨e1, ?_, rfl, by rw [e1, e2]⟩
    rw [e1]
    have hsplit : logs ++ [LogEntry.iterHeader k, LogEntry.negOpp d e, LogEntry.loopNotFound] =
        (logs ++ [LogEntry.iterHeader k, LogEntry.negOpp d e]) ++ [LogEntry.loopNotFound] := by
      simp
    dsimp only
    rw [hsplit, List.getLast?_concat]

/-- A 3-by-3 allocation with exactly `rows + cols - 1 = 5` positive cells
whose basic graph is disconnected (`(2,2)` unreachable from row 0):
`fix_degeneracy` is a no-op and `calculate_uv` returns the sentinel. -/
def P9 : TP := ⟨3, 3, fun _ _ => 0, fun _ => 0, fun _ => 0⟩

def A9 : Alloc := fun r c => if (r ≤ 1 ∧ c ≤ 1) ∨ (r = 2 ∧ c = 2) then 5 else 0

/-- A 2-by-2 diagonal allocation: after degeneracy repair places an epsilon
at `(0,1)`, the entering cell `(1,0)` admits no closed loop (the DFS
exhausts), because the vertical branch lacks the start-node exception. -/
def P9b : TP := ⟨2, 2, fun r c => if r = c then 4 else 1, fun _ => 10, fun _ => 10⟩

def A9b : Alloc := fun r c => if r = c then 10 else 0

def B9b : Alloc := setA A9b 0 1 eps

theorem solve_fatal_halt_witness :
    (modiStep P9 9 A9 = .uvErr A9 ∧
      (solveGo P9 9 4 A9 1 [] =
        ⟨A9, round (calculate_total_cost P9 A9),
          [] ++ [.iterHeader 1, .graphDisconnected], .uvError⟩ ∧
      (solveGo P9 9 4 A9 1 []).logs.getLast? = some .graphDisconnected ∧
      style .graphDisconnected = .error ∧
      solveGo P9 9 4 A9 1 [] = solveGo P9 9 1 A9 1 [])) ∧
    (modiStep P9b 9 A9b = .loopErr B9b (-6) (1, 0) ∧
      (solveGo P9b 9 4 A9b 1 [] =
        ⟨B9b, round (calculate_total_cost P9b B9b),
          [] ++ [.iterHeader 1, .negOpp (-6) (1, 0), .loopNotFound], .loopError⟩ ∧
      (solveGo P9b 9 4 A9b 1 []).logs.getLast? = some .loopNotFound ∧
      style .loopNotFound = .error ∧
      solveGo P9b 9 4 A9b 1 [] = solveGo P9b 9 1 A9b 1 [])) := by
  have hfd1 : fix_degeneracy P9 A9 = A9 := by
    unfold fix_degeneracy
    rw [if_neg]
    rw [countPos_eq_length]
    norm_num [cellsList, List.range_succ, P9, A9]
  have hcuv1 : calculate_uv P9 A9 = none := by
    norm_num [calculate_uv, uvLoop, uvPass, uvCell, uvInit, cellsList, isBasic, eps,
      Function.update, List.range_succ, P9, A9]
  have h1 : modiStep P9 9 A9 = .uvErr A9 := by
    unfold modiStep
    rw [hfd1, hcuv1]
  have hfd2 : fix_degeneracy P9b A9b = B9b := by
    unfold fix_degeneracy
    rw [countPos_eq_length]
    norm_num [cellsList, List.range_succ, fixDegGo, P9b, A9b, B9b]
  have hS : (calculate_uv P9b B9b).isSome = true := by
    norm_num [calculate_uv, uvLoop, uvPass, uvCell, uvInit, cellsList, isBasic, eps,
      Function.update, List.range_succ, P9b, B9b, A9b, setA, Option.some_ne_none]
  have hsome : calculate_uv P9b B9b = some ((calculate_uv P9b B9b).getD uvInit) := by
    rcases hc : calculate_uv P9b B9b with _ | uv
    · rw [hc] at hS
      exact absurd hS (by simp)
    · rfl
  have hscan1 : (scanEntering P9b B9b ((calculate_uv P9b B9b).getD uvInit)).1 = -6 := by
    norm_num [scanEntering, scanF, dval, calculate_uv, uvLoop, uvPass, uvCell, uvInit,
      cellsList, isBasic, eps, Function.update, List.range_succ, P9b, B9b, A9b, setA,
      Option.some_ne_none, Option.getD_some, Option.getD_none]
  have hscan2 : (scanEntering P9b B9b ((calculate_uv P9b B9b).getD uvInit)).2 =
      some (1, 0) := by
    norm_num [scanEntering, scanF, dval, calculate_uv, uvLoop, uvPass, uvCell, uvInit,
      cellsList, isBasic, eps, Function.update, List.range_succ, P9b, B9b, A9b, setA,
      Option.some_ne_none, Option.getD_some, Option.getD_none]
  have hloop : get_closed_loop P9b B9b (1, 0) 9 = some none := by
    norm_num [get_closed_loop, dfsGo, stepNbrs, nbrs, isBasic, eps, List.range_succ,
      List.filterMap_cons, List.filterMap_nil, P9b, B9b, A9b, setA]
  have h2 : modiStep P9b 9 A9b = .loopErr B9b (-6) (1, 0) := by
    unfold modiStep
    rw [hfd2, hsome]
    dsimp only
    rw [if_neg (by rw [hscan1]; norm_num [tol])]
    rw [hscan2]
    dsimp only
    rw [hloop]
    dsimp only
    rw [hscan1]
  exact ⟨⟨h1, (solve_fatal_halt P9 9 3 1 A9 []).1 A9 h1⟩,
    ⟨h2, (solve_fatal_halt P9b 9 3 1 A9b []).2 B9b (-6) (1, 0) h2⟩⟩

/-- The optimality certificate propagated through the `solve` loop: an
`optimal` outcome pins the final allocation and duals to an `opt` step,
whose scan bound covers every zero cell. -/
lemma solveGo_optimal_cert (P : TP) (dfsF : ℕ) :
    ∀ (n : ℕ) (A : Alloc) (k : ℕ) (logs : List LogEntry) (uv : UV),
      (solveGo P dfsF n A k logs).outcome = .optimal uv →
      ∀ r < P.rows, ∀ c < P.cols, (solveGo P dfsF n A k logs).alloc r c = 0 →
        -tol ≤ dval P uv (r, c) := by
  intro n
  induction n with
  | zero =>
      intro A k logs uv h
      rw [solveGo] at h
      exact Outcome.noConfusion h
  | succ n ih =>
      intro A k logs uv h r hr c hc hz
      rw [solveGo] at h hz
      cases hms : modiStep P dfsF A with
      | uvErr A1 =>
          rw [hms] at h
          exact Outcome.noConfusion h
      | opt A1 uv2 =>
          rw [hms] at h hz
          dsimp only at h hz
          obtain rfl : uv2 = uv := Outcome.optimal.inj h
          obtain ⟨hA1, hcuv, hsc⟩ := modiStep_opt_spec hms
          subst hA1
          have hmem : ((r, c) : Cell) ∈ cellsList P := (mem_cellsList P (r, c)).mpr ⟨hr, hc⟩
          have hb := (scan_fold P (fix_degeneracy P A) uv2 (cellsList P) (0, none)).2.1
            (r, c) hmem hz
          unfold scanEntering at hsc
          exact le_trans hsc hb
      | noEnt A1 =>
          rw [hms] at h
          exact Outcome.noConfusion h
      | fuelOut A1 =>
          rw [hms] at h
          exact Outcome.noConfusion h
      | loopErr A1 d e =>
          rw [hms] at h
          exact Outcome.noConfusion h
      | next A2 d e p th =>
          rw [hms] at h hz
          exact ih A2 (k + 1) _ uv h r hr c hc hz

/-- What a returned entering cell means: it is a zero cell attaining the
final minimum, every scanned zero cell is at least the minimum, and every
zero cell strictly earlier in row-major order is strictly worse. -/
lemma scanEntering_spec (P : TP) (A : Alloc) (uv : UV) {e : Cell}
    (h : (scanEntering P A uv).2 = some e) :
    A e.1 e.2 = 0 ∧ (scanEntering P A uv).1 = dval P uv e ∧
    (∀ x ∈ cellsList P, A x.1 x.2 = 0 → (scanEntering P A uv).1 ≤ dval P uv x) ∧
    ∃ l1 l2, cellsList P = l1 ++ e :: l2 ∧
      ∀ x ∈ l1, A x.1 x.2 = 0 → (scanEntering P A uv).1 < dval P uv x := by
  obtain ⟨h1, h2, h3⟩ := scan_fold P A uv (cellsList P) (0, none)
  unfold scanEntering at h ⊢
  rcases h3 with heq | ⟨e2, l1, l2, hsplit, h0, hval, hsome, hlt, hall⟩
  · rw [heq] at h
    exact absurd h (by simp)
  · rw [hsome] at h
    obtain rfl : e2 = e := Option.some.inj h
    exact ⟨h0, hval, h2, l1, l2, hsplit, hall⟩

/-- C3: (a) whenever `solve` ends with the optimal outcome, the duals of
that final iteration certify `costs[r][c] - (u[r] + v[c]) >= -1e-9` on
every cell whose returned allocation is exactly zero; (b) whenever an
iteration continues (performs a reallocation), its entering cell is a
zero cell of the repaired allocation attaining the most negative
opportunity cost `d < -1e-9`, and every zero cell strictly earlier in
row-major scan order has a strictly larger opportunity cost (ties go to
the first such cell, since the incumbent is replaced only on strictly
smaller values). -/
theorem solve_optimal_tiebreak (P : TP) (dfsF iterF : ℕ) :
    (∀ uv : UV, (solve P dfsF iterF).outcome = .optimal uv →
      ∀ r < P.rows, ∀ c < P.cols, (solve P dfsF iterF).alloc r c = 0 →
        -tol ≤ dval P uv (r, c)) ∧
    (∀ (f : ℕ) (A A2 : Alloc) (d : ℚ) (e : Cell) (p : List Cell) (th : ℚ),
      modiStep P f A = .next A2 d e p th →
      ∃ uv : UV, calculate_uv P (fix_degeneracy P A) = some uv ∧
        fix_degeneracy P A e.1 e.2 = 0 ∧ d = dval P uv e ∧ d < -tol ∧
        (∀ x ∈ cellsList P, fix_degeneracy P A x.1 x.2 = 0 → d ≤ dval P uv x) ∧
        ∃ l1 l2, cellsList P = l1 ++ e :: l2 ∧
          ∀ x ∈ l1, fix_degeneracy P A x.1 x.2 = 0 → d < dval P uv x) := by
  constructor
  · intro uv h r hr c hc hz
    exact solveGo_optimal_cert P dfsF iterF (nwcm P) 1 _ uv h r hr c hc hz
  · intro f A A2 d e p th hms
    obtain ⟨uv, hcuv, hnopt, hd, hsc2, hloop, hth, hA2⟩ := modiStep_next_spec hms
    obtain ⟨h0, hval, hallmin, l1, l2, hsplit, hfirst⟩ :=
      scanEntering_spec P (fix_degeneracy P A) uv hsc2
    have hdlt : d < -tol := by
      rw [← hd]
      exact not_le.mp hnopt
    refine ⟨uv, hcuv, h0, by rw [← hd]; exact hval, hdlt, ?_, l1, l2, hsplit, ?_⟩
    · intro x hx hxz
      rw [← hd]
      exact hallmin x hx hxz
    · intro x hx hxz
      rw [← hd]
      exact hfirst x hx hxz

/-- An if-based copy of the `Pex` data (costs `[[4,6],[5,3]]`, supply
`[20,30]`, demand `[25,25]`), and the duals computed on it after NWCM. -/
def P3x : TP :=
  ⟨2, 2,
    fun r c => if r = 0 then (if c = 0 then 4 else 6) else (if c = 0 then 5 else 3),
    fun r => if r = 0 then 20 else 30, fun _ => 25⟩

def uvP3 : UV := (calculate_uv P3x (nwcm P3x)).getD uvInit

/-- A 2-by-3 state on which the MODI iteration body performs a
reallocation: entering cell `(1,0)`, pseudo-loop `p7`, `theta = 10`. -/
def P7 : TP :=
  ⟨2, 3, fun r c => if r = 1 ∧ c = 1 then 5 else if r = 1 ∧ c = 0 then 1 else 0,
    fun r => if r = 0 then 30 else 20, fun c => if c = 0 then 10 else 20⟩

def A7 : Alloc := fun r c => if r = 0 ∨ 1 ≤ c then 10 else 0

def p7 : List Cell := [(1, 0), (1, 2), (0, 2), (0, 1), (1, 1)]

def A7x : Alloc := reallocate 10 true A7 p7

/-- On `P7`/`A7` the iteration body reaches the reallocation branch with
the concrete data above. -/
lemma modiStep_P7 : modiStep P7 9 A7 = .next A7x (-4) (1, 0) p7 10 := by
  have hfd : fix_degeneracy P7 A7 = A7 := by
    unfold fix_degeneracy
    rw [if_neg]
    rw [countPos_eq_length]
    norm_num [cellsList, List.range_succ, P7, A7]
  have hS : (calculate_uv P7 A7).isSome = true := by
    norm_num [calculate_uv, uvLoop, uvPass, uvCell, uvInit, cellsList, isBasic, eps,
      Function.update, List.range_succ, P7, A7, Option.some_ne_none]
  have hsome : calculate_uv P7 A7 = some ((calculate_uv P7 A7).getD uvInit) := by
    rcases hc : calculate_uv P7 A7 with _ | uv
    · rw [hc] at hS
      exact absurd hS (by simp)
    · rfl
  have hscan1 : (scanEntering P7 A7 ((calculate_uv P7 A7).getD uvInit)).1 = -4 := by
    norm_num [scanEntering, scanF, dval, calculate_uv, uvLoop, uvPass, uvCell, uvInit,
      cellsList, isBasic, eps, Function.update, List.range_succ, P7, A7,
      Option.some_ne_none, Option.getD_some, Option.getD_none]
  have hscan2 : (scanEntering P7 A7 ((calculate_uv P7 A7).getD uvInit)).2 =
      some (1, 0) := by
    norm_num [scanEntering, scanF, dval, calculate_uv, uvLoop, uvPass, uvCell, uvInit,
      cellsList, isBasic, eps, Function.update, List.range_succ, P7, A7,
      Option.some_ne_none, Option.getD_some, Option.getD_none]
  have hloop : get_closed_loop P7 A7 (1, 0) 9 = some (some p7) := by
    norm_num [get_closed_loop, dfsGo, stepNbrs, nbrs, isBasic, eps, List.range_succ,
      List.filterMap_cons, List.filterMap_nil, P7, A7, p7]
  have hth : minTheta A7 p7 = 10 := by
    norm_num [minTheta, evenOdd, List.min?, p7, A7]
  unfold modiStep
  rw [hfd, hsome]
  dsimp only
  rw [if_neg (by rw [hscan1]; norm_num [tol])]
  rw [hscan2]
  dsimp only
  rw [hloop]
  dsimp only
  rw [hscan1, hth, A7x]

theorem solve_optimal_tiebreak_witness :
    ((solve P3x 9 3).outcome = .optimal uvP3 ∧
      (∀ r < P3x.rows, ∀ c < P3x.cols, (solve P3x 9 3).alloc r c = 0 →
        -tol ≤ dval P3x uvP3 (r, c))) ∧
    (modiStep P7 9 A7 = .next A7x (-4) (1, 0) p7 10 ∧
      ∃ uv : UV, calculate_uv P7 (fix_degeneracy P7 A7) = some uv ∧
        fix_degeneracy P7 A7 1 0 = 0 ∧ (-4 : ℚ) = dval P7 uv (1, 0) ∧ (-4 : ℚ) < -tol ∧
        (∀ x ∈ cellsList P7, fix_degeneracy P7 A7 x.1 x.2 = 0 →
          (-4 : ℚ) ≤ dval P7 uv x) ∧
        ∃ l1 l2, cellsList P7 = l1 ++ (1, 0) :: l2 ∧
          ∀ x ∈ l1, fix_degeneracy P7 A7 x.1 x.2 = 0 → (-4 : ℚ) < dval P7 uv x) := by
  have hfd : fix_degeneracy P3x (nwcm P3x) = nwcm P3x := by
    unfold fix_degeneracy
    rw [if_neg]
    rw [countPos_eq_length]
    norm_num [cellsList, List.range_succ, nwcm, nwcmGo, nwcmStep, nwcmInit,
      Function.update, setA, P3x]
  have hS : (calculate_uv P3x (nwcm P3x)).isSome = true := by
    norm_num [calculate_uv, uvLoop, uvPass, uvCell, uvInit, cellsList, isBasic, eps,
      Function.update, List.range_succ, nwcm, nwcmGo, nwcmStep, nwcmInit, setA, P3x,
      Option.some_ne_none]
  have hsome : calculate_uv P3x (nwcm P3x) = some uvP3 := by
    rw [uvP3]
    rcases hc : calculate_uv P3x (nwcm P3x) with _ | uv
    · rw [hc] at hS
      exact absurd hS (by simp)
    · rfl
  have hscan1 : (scanEntering P3x (nwcm P3x) uvP3).1 = 0 := by
    norm_num [uvP3, scanEntering, scanF, dval, calculate_uv, uvLoop, uvPass, uvCell,
      uvInit, cellsList, isBasic, eps, Function.update, List.range_succ, nwcm, nwcmGo,
      nwcmStep, nwcmInit, setA, P3x, Option.some_ne_none, Option.getD_some, Option.getD_none]
  have hms : modiStep P3x 9 (nwcm P3x) = .opt (nwcm P3x) uvP3 := by
    unfold modiStep
    rw [hfd, hsome]
    dsimp only
    rw [if_pos (by rw [hscan1]; norm_num [tol])]
  have hsolve : solve P3x 9 3 =
      ⟨nwcm P3x, round (calculate_total_cost P3x (nwcm P3x)),
        [.initNWCM, .initialCost (calculate_total_cost P3x (nwcm P3x))] ++
          [.iterHeader 1, .optimalMsg], .optimal uvP3⟩ := by
    unfold solve solveGo
    rw [hms]
  have houtcome : (solve P3x 9 3).outcome = .optimal uvP3 := by
    rw [hsolve]
  exact ⟨⟨houtcome, (solve_optimal_tiebreak P3x 9 3).1 uvP3 houtcome⟩,
    ⟨modiStep_P7, (solve_optimal_tiebreak P7 9 3).2 9 A7 A7x (-4) (1, 0) p7 10 modiStep_P7⟩⟩

/-- C7: counterexample to cost monotonicity.  An optimization iteration
whose reallocation shifts `theta = 10 > 0` along the returned loop
strictly increases the total cost from 50 to 110: the returned path has
odd length (the vertical neighbor branch lacks the start-node exception,
so loops close only horizontally), and the alternating shift over an odd
path adds `theta` to a row twice while subtracting it once. -/
theorem reallocation_increases_cost :
    modiStep P7 9 A7 = .next A7x (-4) (1, 0) p7 10 ∧
    (0 : ℚ) < 10 ∧
    calculate_total_cost P7 A7 = 50 ∧
    calculate_total_cost P7 A7x = 110 ∧
    ¬calculate_total_cost P7 A7x ≤ calculate_total_cost P7 A7 := by
  refine ⟨modiStep_P7, by norm_num, ?_, ?_, ?_⟩
  · norm_num [calculate_total_cost, Finset.sum_range_succ, P7, A7]
  · norm_num [calculate_total_cost, Finset.sum_range_succ, P7, A7x, A7, p7,
      reallocate, bump, setA]
  · norm_num [calculate_total_cost, Finset.sum_range_succ, P7, A7x, A7, p7,
      reallocate, bump, setA]

/-- Membership in the even/odd split determines a position of that
parity. -/
lemma evenOdd_mem_split : ∀ (p : List Cell) (y : Cell),
    (y ∈ (evenOdd p).1 → ∃ l1 l2, p = l1 ++ y :: l2 ∧ Even l1.length) ∧
    (y ∈ (evenOdd p).2 → ∃ l1 l2, p = l1 ++ y :: l2 ∧ ¬Even l1.length) := by
  intro p
  induction p with
  | nil =>
      intro y
      constructor <;> intro h <;> exact absurd h (List.not_mem_nil y)
  | cons x rest ih =>
      intro y
      constructor
      · intro h
        have h2 : y ∈ x :: (evenOdd rest).2 := h
        rcases List.mem_cons.mp h2 with rfl | hmem
        · exact ⟨[], rest, rfl, by simp⟩
        · obtain ⟨l1, l2, hsp, hodd⟩ := (ih y).2 hmem
          exact ⟨x :: l1, l2, by rw [hsp]; rfl, by simp [Nat.even_add_one, hodd]⟩
      · intro h
        have h2 : y ∈ (evenOdd rest).1 := h
        obtain ⟨l1, l2, hsp, hev⟩ := (ih y).1 h2
        exact ⟨x :: l1, l2, by rw [hsp]; rfl, by simp [Nat.even_add_one, hev]⟩

lemma evenOdd_snd_ne_nil : ∀ (p : List Cell), 2 ≤ p.length → (evenOdd p).2 ≠ [] := by
  intro p h
  rcases p with _ | ⟨x, _ | ⟨y, rest⟩⟩
  · simp at h
  · simp at h
  · simp [evenOdd]

lemma reallocate_value_even (th : ℚ) {y : Cell} {l1 l2 : List Cell} {A : Alloc}
    (h1 : y ∉ l1) (h2 : y ∉ l2) (hev : Even l1.length) :
    reallocate th true A (l1 ++ y :: l2) y.1 y.2 = A y.1 y.2 + th := by
  rw [reallocate_value th l1 l2 true A h1 h2, if_pos hev]
  simp

lemma reallocate_value_odd (th : ℚ) {y : Cell} {l1 l2 : List Cell} {A : Alloc}
    (h1 : y ∉ l1) (h2 : y ∉ l2) (hodd : ¬Even l1.length) :
    reallocate th true A (l1 ++ y :: l2) y.1 y.2 = A y.1 y.2 - th := by
  rw [reallocate_value th l1 l2 true A h1 h2, if_neg hodd]
  simp [sub_eq_add_neg]

/-- Split out the not-in-prefix/suffix facts of a nodup decomposition. -/
lemma nodup_split_not_mem {y : Cell} {l1 l2 : List Cell}
    (h : (l1 ++ y :: l2).Nodup) : y ∉ l1 ∧ y ∉ l2 := by
  obtain ⟨hnd1, hnd2, hdisj⟩ := List.nodup_append.mp h
  exact ⟨fun hin => hdisj hin (List.mem_cons_self _ _), (List.nodup_cons.mp hnd2).1⟩

/-- The reallocation of `solve` along a returned path, with
`theta = minTheta`, keeps the allocation non-negative and does not
increase the number of positive cells (the receiving entering cell is
offset by a donating cell that reaches exactly zero). -/
lemma reallocate_shift_inv (P : TP) (A : Alloc) (e : Cell) (p : List Cell)
    (hgp : GoodPath P A e p) (hnn : ∀ i j, 0 ≤ A i j) :
    (∀ i j, 0 ≤ reallocate (minTheta A p) true A p i j) ∧
    countPos P (reallocate (minTheta A p) true A p) ≤ countPos P A := by
  obtain ⟨t, hpt⟩ := head?_some_decomp hgp.hhead
  have hne := evenOdd_snd_ne_nil p (le_trans (by norm_num) hgp.hlen)
  obtain ⟨y0, hy0⟩ := List.exists_mem_of_ne_nil _ hne
  rcases hm : ((evenOdd p).2.map fun x => A x.1 x.2).min? with _ | m
  · rw [List.min?_eq_none_iff] at hm
    exact absurd (List.mem_map_of_mem _ hy0) (by rw [hm]; exact List.not_mem_nil _)
  · have hthm : minTheta A p = m := by
      unfold minTheta
      rw [hm]
      rfl
    obtain ⟨mc, hmc, hmcv⟩ := List.mem_map.mp (qmin?_mem hm)
    have hth0 : 0 ≤ minTheta A p := by
      rw [hthm, ← hmcv]
      exact hnn _ _
    have hnonneg : ∀ i j, 0 ≤ reallocate (minTheta A p) true A p i j := by
      intro i j
      by_cases hmem : ((i, j) : Cell) ∈ p
      · obtain ⟨l1, l2, hsplit⟩ := List.append_of_mem hmem
        have hnd := hgp.hnd
        rw [hsplit] at hnd
        obtain ⟨hy1, hy2⟩ := nodup_split_not_mem hnd
        by_cases hev : Even l1.length
        · have hval : reallocate (minTheta A p) true A p i j = A i j + minTheta A p := by
            rw [hsplit]
            exact reallocate_value_even _ hy1 hy2 hev
          rw [hval]
          exact add_nonneg (hnn i j) hth0
        · have hval : reallocate (minTheta A p) true A p i j = A i j - minTheta A p := by
            rw [hsplit]
            exact reallocate_value_odd _ hy1 hy2 hev
          have hmem2 : ((i, j) : Cell) ∈ (evenOdd p).2 := by
            rw [hsplit]
            exact (evenOdd_position l1 (i, j) l2).2 hev
          have hvmem : A i j ∈ (evenOdd p).2.map fun x => A x.1 x.2 :=
            List.mem_map_of_mem _ hmem2
          have hle : minTheta A p ≤ A i j := by
            rw [hthm]
            exact qmin?_le hm hvmem
          rw [hval]
          linarith
      · have hxval : reallocate (minTheta A p) true A p i j = A i j :=
          reallocate_not_mem (minTheta A p) p true A hmem
        rw [hxval]
        exact hnn i j
    refine ⟨hnonneg, ?_⟩
    obtain ⟨lo1, lo2, hmsplit, hmodd⟩ := (evenOdd_mem_split p mc).2 hmc
    have hndm := hgp.hnd
    rw [hmsplit] at hndm
    obtain ⟨hmy1, hmy2⟩ := nodup_split_not_mem hndm
    have hmc0 : reallocate (minTheta A p) true A p mc.1 mc.2 = 0 := by
      rw [hmsplit, reallocate_value_odd _ hmy1 hmy2 hmodd, ← hmsplit, hthm, hmcv]
      ring
    have hmc_tail := evenOdd_snd_tail p mc hmc
    obtain ⟨hmr, hmcc, hmb⟩ := hgp.htail mc hmc_tail
    have hsub : ((Finset.range P.rows ×ˢ Finset.range P.cols).filter
        fun e => 0 < reallocate (minTheta A p) true A p e.1 e.2) ⊆
        (insert e ((Finset.range P.rows ×ˢ Finset.range P.cols).filter
          fun e => 0 < A e.1 e.2)).erase mc := by
      intro x hx
      rw [Finset.mem_filter] at hx
      rw [Finset.mem_erase, Finset.mem_insert]
      constructor
      · intro hxe
        subst hxe
        rw [hmc0] at hx
        exact absurd hx.2 (lt_irrefl 0)
      · by_cases hxp : x ∈ p
        · rw [hpt] at hxp
          rcases List.mem_cons.mp hxp with rfl | hxt
          · exact Or.inl rfl
          · right
            have hxtail : x ∈ p.tail := by
              rw [hpt]
              exact hxt
            obtain ⟨hxr, hxc, hxb⟩ := hgp.htail x hxtail
            rw [Finset.mem_filter]
            exact ⟨hx.1, (isBasic_iff_pos A x.1 x.2).mp hxb⟩
        · right
          rw [Finset.mem_filter]
          have hxval := reallocate_not_mem (minTheta A p) p true A hxp
          rw [hxval] at hx
          exact ⟨hx.1, hx.2⟩
    have hmcmem : mc ∈ insert e ((Finset.range P.rows ×ˢ Finset.range P.cols).filter
        fun e => 0 < A e.1 e.2) := by
      apply Finset.mem_insert_of_mem
      rw [Finset.mem_filter]
      refine ⟨?_, (isBasic_iff_pos A mc.1 mc.2).mp hmb⟩
      rw [Finset.mem_product, Finset.mem_range, Finset.mem_range]
      exact ⟨hmr, hmcc⟩
    have h1 : countPos P (reallocate (minTheta A p) true A p) ≤
        ((insert e ((Finset.range P.rows ×ˢ Finset.range P.cols).filter
          fun e => 0 < A e.1 e.2)).erase mc).card := Finset.card_le_card hsub
    rw [Finset.card_erase_of_mem hmcmem] at h1
    have h2 := Finset.card_insert_le e ((Finset.range P.rows ×ˢ Finset.range P.cols).filter
      fun e => 0 < A e.1 e.2)
    have h3 : (insert e ((Finset.range P.rows ×ˢ Finset.range P.cols).filter
        fun e => 0 < A e.1 e.2)).card - 1 ≤ countPos P A :=
      le_trans (Nat.sub_le_sub_right h2 1) (le_of_eq (Nat.add_sub_cancel _ 1))
    exact le_trans h1 h3

/-! ## Positive-cell count along the run -/

lemma countPos_zeroA (P : TP) : countPos P (fun _ _ => (0 : ℚ)) = 0 := by
  simp [countPos]

lemma countPos_setA_le (P : TP) (A : Alloc) (r c : ℕ) (q : ℚ) :
    countPos P (setA A r c q) ≤ countPos P A + 1 := by
  unfold countPos
  have hsub : ((Finset.range P.rows ×ˢ Finset.range P.cols).filter
      fun e => 0 < setA A r c q e.1 e.2) ⊆
      insert (r, c) ((Finset.range P.rows ×ˢ Finset.range P.cols).filter
        fun e => 0 < A e.1 e.2) := by
    intro x hx
    rw [Finset.mem_filter] at hx
    rw [Finset.mem_insert]
    by_cases hxe : x = (r, c)
    · exact Or.inl hxe
    · right
      rw [Finset.mem_filter]
      refine ⟨hx.1, ?_⟩
      have h2 := hx.2
      rwa [setA_other A r c q (fun hh => hxe (Prod.ext hh.1 hh.2))] at h2
  have h1 := Finset.card_le_card hsub
  have h2 := Finset.card_insert_le (r, c) ((Finset.range P.rows ×ˢ Finset.range P.cols).filter
    fun e => 0 < A e.1 e.2)
  omega

lemma nwcmStep_alloc (s : NWState) :
    (nwcmStep s).alloc = setA s.alloc s.r s.c (min (s.cs s.r) (s.cd s.c)) := by
  simp only [nwcmStep]
  split_ifs <;> rfl

/-- Each `nwcm` run either does nothing or ends with cursor total at most
`rows + cols - 1` (the last executed step started strictly inside the
grid). -/
lemma nwcmGo_state_bound (P : TP) : ∀ f s s2, nwcmGo P f s = some s2 →
    s2 = s ∨ s2.r + s2.c ≤ P.rows + P.cols - 1 := by
  intro f
  induction f with
  | zero =>
      intro s s2 h
      unfold nwcmGo at h
      by_cases hact : s.r < P.rows ∧ s.c < P.cols
      · rw [if_pos hact] at h
        exact absurd h (by simp)
      · rw [if_neg hact] at h
        cases h
        exact Or.inl rfl
  | succ f ih =>
      intro s s2 h
      unfold nwcmGo at h
      by_cases hact : s.r < P.rows ∧ s.c < P.cols
      · rw [if_pos hact] at h
        rcases ih _ _ h with rfl | hb
        · right
          rw [nwcmStep_rc]
          omega
        · exact Or.inr hb
      · rw [if_neg hact] at h
        cases h
        exact Or.inl rfl

/-- Each executed `nwcm` step writes one cell, so the positive count grows
at most as fast as the cursor total. -/
lemma nwcmGo_countPos (P : TP) : ∀ f s s2, nwcmGo P f s = some s2 →
    countPos P s2.alloc + s.r + s.c ≤ countPos P s.alloc + s2.r + s2.c := by
  intro f
  induction f with
  | zero =>
      intro s s2 h
      unfold nwcmGo at h
      by_cases hact : s.r < P.rows ∧ s.c < P.cols
      · rw [if_pos hact] at h
        exact absurd h (by simp)
      · rw [if_neg hact] at h
        cases h
        omega
  | succ f ih =>
      intro s s2 h
      unfold nwcmGo at h
      by_cases hact : s.r < P.rows ∧ s.c < P.cols
      · rw [if_pos hact] at h
        have h2 := ih _ _ h
        have hr := nwcmStep_rc s
        have hca : countPos P (nwcmStep s).alloc ≤ countPos P s.alloc + 1 := by
          rw [nwcmStep_alloc]
          exact countPos_setA_le P s.alloc s.r s.c _
        omega
      · rw [if_neg hact] at h
        cases h
        omega

lemma nwcm_countPos_le (P : TP) : countPos P (nwcm P) ≤ P.rows + P.cols - 1 := by
  obtain ⟨s2, hgo, halloc⟩ := nwcm_run P
  rw [halloc]
  have h1 := nwcmGo_countPos P _ _ _ hgo
  have h0 : countPos P (nwcmInit P).alloc = 0 := countPos_zeroA P
  have hir : (nwcmInit P).r = 0 := rfl
  have hic : (nwcmInit P).c = 0 := rfl
  rcases nwcmGo_state_bound P _ _ _ hgo with rfl | hb
  · omega
  · omega

lemma nwcm_nonneg (P : TP) (hs : ∀ i, 0 ≤ P.supply i) (hdm : ∀ j, 0 ≤ P.demand j) :
    ∀ i j, 0 ≤ nwcm P i j := by
  obtain ⟨s2, hgo, halloc⟩ := nwcm_run P
  rw [halloc]
  exact ((nwcmGo_inv P _ _ _ hgo (nwcmInit_inv P hs hdm)).1).ann

/-- The allocation states the optimization loop of `solve` passes through:
the NWCM result, then each successive reallocation result. -/
inductive SolveState (P : TP) (dfsF : ℕ) : Alloc → Prop
  | init : SolveState P dfsF (nwcm P)
  | step {A A2 : Alloc} {d : ℚ} {e : Cell} {p : List Cell} {th : ℚ} :
      SolveState P dfsF A → modiStep P dfsF A = .next A2 d e p th → SolveState P dfsF A2

/-- The loop invariant of `solve`: every reached allocation is
non-negative with at most `rows + cols - 1` positive cells. -/
lemma solveState_inv (P : TP) (dfsF : ℕ) (hrows : 1 ≤ P.rows) (hcols : 1 ≤ P.cols)
    (hs : ∀ i, 0 ≤ P.supply i) (hdm : ∀ j, 0 ≤ P.demand j) :
    ∀ A, SolveState P dfsF A →
      (∀ i j, 0 ≤ A i j) ∧ countPos P A ≤ P.rows + P.cols - 1 := by
  intro A hst
  induction hst with
  | init => exact ⟨nwcm_nonneg P hs hdm, nwcm_countPos_le P⟩
  | @step B B2 d2 e2 p2 th2 hprev hms ih =>
      obtain ⟨hnn, hcnt⟩ := ih
      obtain ⟨uv, hcuv, hnopt, hdv, hsc2, hloop, hth, hA2⟩ := modiStep_next_spec hms
      obtain ⟨h0, hval, hallmin, l1, l2, hsplit, hfirst⟩ :=
        scanEntering_spec P (fix_degeneracy P B) uv hsc2
      have hemem : e2 ∈ cellsList P := by
        rw [hsplit]
        exact List.mem_append_right l1 (List.mem_cons_self _ _)
      have hegrid := (mem_cellsList P e2).mp hemem
      have hnn1 := fix_degeneracy_nonneg P B hnn
      have hcnt1 := fix_degeneracy_count P B hrows hcols hnn hcnt
      have hgp := get_closed_loop_sound hegrid hloop
      have hri := reallocate_shift_inv P (fix_degeneracy P B) e2 p2 hgp hnn1
      subst hA2
      subst hth
      exact ⟨hri.1, le_trans hri.2 (le_of_eq hcnt1)⟩

/-- C6: for every balanced instance with non-negative inputs, every cell
of the allocation matrix is non-negative at every point during `solve`:
after NWCM (the initial state), after each reallocation (every later
state), and after each degeneracy repair (the repaired copy of any
reached state). -/
theorem allocation_nonneg_throughout (P : TP) (dfsF : ℕ)
    (hrows : 1 ≤ P.rows) (hcols : 1 ≤ P.cols) (hcnn : ∀ r c, 0 ≤ P.costs r c)
    (hs : ∀ i, 0 ≤ P.supply i) (hdm : ∀ j, 0 ≤ P.demand j)
    (hbal : ∑ i in Finset.range P.rows, P.supply i =
      ∑ j in Finset.range P.cols, P.demand j) :
    ∀ A, SolveState P dfsF A →
      (∀ i j, 0 ≤ A i j) ∧ (∀ i j, 0 ≤ fix_degeneracy P A i j) := by
  intro A hst
  have h := (solveState_inv P dfsF hrows hcols hs hdm A hst).1
  exact ⟨h, fix_degeneracy_nonneg P A h⟩

theorem allocation_nonneg_throughout_witness :
    (1 ≤ P3x.rows) ∧ (1 ≤ P3x.cols) ∧ (∀ r c, 0 ≤ P3x.costs r c) ∧
    (∀ i, 0 ≤ P3x.supply i) ∧ (∀ j, 0 ≤ P3x.demand j) ∧
    (∑ i in Finset.range P3x.rows, P3x.supply i =
      ∑ j in Finset.range P3x.cols, P3x.demand j) ∧
    ((∀ i j, 0 ≤ nwcm P3x i j) ∧ (∀ i j, 0 ≤ fix_degeneracy P3x (nwcm P3x) i j)) := by
  have h1 : ∀ r c, 0 ≤ P3x.costs r c := by
    intro r c
    rcases r with _ | r <;> rcases c with _ | c <;> norm_num [P3x]
  have h2 : ∀ i, 0 ≤ P3x.supply i := by
    intro i
    rcases i with _ | i <;> norm_num [P3x]
  have h3 : ∀ j, 0 ≤ P3x.demand j := by
    intro j
    norm_num [P3x]
  have h4 : ∑ i in Finset.range P3x.rows, P3x.supply i =
      ∑ j in Finset.range P3x.cols, P3x.demand j := by
    norm_num [P3x, Finset.sum_range_succ]
  exact ⟨by norm_num [P3x], by norm_num [P3x], h1, h2, h3, h4,
    allocation_nonneg_throughout P3x 9 (by norm_num [P3x]) (by norm_num [P3x])
      h1 h2 h3 h4 (nwcm P3x) SolveState.init⟩

/-- C8: on every optimization iteration of `solve` — that is, at every
allocation state the loop passes through — immediately after
`fix_degeneracy` returns and before `calculate_uv` is called, the number
of cells with strictly positive allocation (real or epsilon marker)
equals `rows + cols - 1`. -/
theorem basis_size_after_fix (P : TP) (dfsF : ℕ)
    (hrows : 1 ≤ P.rows) (hcols : 1 ≤ P.cols) (hcnn : ∀ r c, 0 ≤ P.costs r c)
    (hs : ∀ i, 0 ≤ P.supply i) (hdm : ∀ j, 0 ≤ P.demand j)
    (hbal : ∑ i in Finset.range P.rows, P.supply i =
      ∑ j in Finset.range P.cols, P.demand j) :
    ∀ A, SolveState P dfsF A →
      countPos P (fix_degeneracy P A) = P.rows + P.cols - 1 := by
  intro A hst
  obtain ⟨hnn, hcnt⟩ := solveState_inv P dfsF hrows hcols hs hdm A hst
  exact fix_degeneracy_count P A hrows hcols hnn hcnt

theorem basis_size_after_fix_witness :
    (1 ≤ P3x.rows) ∧ (1 ≤ P3x.cols) ∧ (∀ r c, 0 ≤ P3x.costs r c) ∧
    (∀ i, 0 ≤ P3x.supply i) ∧ (∀ j, 0 ≤ P3x.demand j) ∧
    (∑ i in Finset.range P3x.rows, P3x.supply i =
      ∑ j in Finset.range P3x.cols, P3x.demand j) ∧
    countPos P3x (fix_degeneracy P3x (nwcm P3x)) = P3x.rows + P3x.cols - 1 := by
  have h1 : ∀ r c, 0 ≤ P3x.costs r c := by
    intro r c
    rcases r with _ | r <;> rcases c with _ | c <;> norm_num [P3x]
  have h2 : ∀ i, 0 ≤ P3x.supply i := by
    intro i
    rcases i with _ | i <;> norm_num [P3x]
  have h3 : ∀ j, 0 ≤ P3x.demand j := by
    intro j
    norm_num [P3x]
  have h4 : ∑ i in Finset.range P3x.rows, P3x.supply i =
      ∑ j in Finset.range P3x.cols, P3x.demand j := by
    norm_num [P3x, Finset.sum_range_succ]
  exact ⟨by norm_num [P3x], by norm_num [P3x], h1, h2, h3, h4,
    basis_size_after_fix P3x 9 (by norm_num [P3x]) (by norm_num [P3x])
      h1 h2 h3 h4 (nwcm P3x) SolveState.init⟩

end TPS
